import Mathlib

/-!
# siteflon: the markup compiler of `src/sitefl.go` and its copy in `src/main.go`

A shallow embedding of `compile` and of the package-level variables it works
on; the copy of `compile` in `main.go` is embedded in the namespace `MainGo`.  Bytes are natural numbers (every byte of a real input is below 256), a Go
`string` and a `bytes.Buffer` are lists of bytes, and the package-level
variables are the fields of `Globals`, passed explicitly.  Indexing a string
out of range is a run-time panic in Go: the accessors `curr`, `peek` and
`peek2` return `Res.panic` there.  Loops take a fuel argument, set to
`len(source) + 1` where the loop is entered: every loop of the source moves
the cursor forward in each round.  An exhausted budget is the separate outcome
`Res.timeout`, so a theorem that states a result or a panic is about a run
that ended within its budget.
-/

namespace Siteflon

/-! ## Results -/

/-- Outcome of a piece of Go code: a value, a run-time panic (index out of
range), or an exhausted loop budget. -/
inductive Res (α : Type) where
  | ok (a : α)
  | panic
  | timeout
deriving DecidableEq, Repr

/-- Sequencing: a panic or an exhausted budget ends the computation. -/
def Res.bind {α β : Type} (r : Res α) (f : α → Res β) : Res β :=
  match r with
  | .ok a => f a
  | .panic => .panic
  | .timeout => .timeout

instance : Monad Res where
  pure := Res.ok
  bind := Res.bind

/-! ## States (the `const ( normal int = iota ... )` block) -/

abbrev normal : Nat := 0
abbrev escape : Nat := 1
abbrev bold : Nat := 2
abbrev italics : Nat := 3
abbrev underline : Nat := 4
abbrev link : Nat := 5
abbrev alttext : Nat := 6
abbrev url : Nat := 7
abbrev image : Nat := 8
abbrev code : Nat := 9
abbrev heading : Nat := 10

/-! ## The map `blockChars`, one constant per key -/

namespace blockChars
/-- The byte of `'\\'`. -/
abbrev esc : Nat := 92
/-- The byte of `'{'`. -/
abbrev escapeBegin : Nat := 123
/-- The byte of `'}'`. -/
abbrev escapeEnd : Nat := 125
/-- The byte of `'*'`. -/
abbrev bold : Nat := 42
/-- The byte of `'/'`. -/
abbrev italics : Nat := 47
/-- The byte of `'_'`. -/
abbrev underline : Nat := 95
/-- The byte of `'-'`. -/
abbrev line : Nat := 45
/-- The byte of `';'`. -/
abbrev newline : Nat := 59
/-- The byte of `'@'`. -/
abbrev link : Nat := 64
/-- The byte of `'!'`. -/
abbrev image : Nat := 33
/-- The byte of the backtick. -/
abbrev code : Nat := 96
/-- The byte of `'#'`. -/
abbrev heading : Nat := 35
end blockChars

/-- The bytes of an ASCII string literal. -/
def ascii (s : String) : List Nat := s.toList.map Char.toNat

/-- Go's `strconv.Itoa` on a non-negative number, as bytes. -/
def itoa (n : Nat) : List Nat := (Nat.toDigits 10 n).map Char.toNat

/-! ## Package-level variables -/

/-- The package-level variables of `sitefl.go`. -/
structure Globals where
  openStates : List Nat
  ch : Nat
  source : List Nat
  current : Nat
  peeked : Nat
  hNum : Nat
  preserveNewLines : Bool
deriving DecidableEq, Repr

/-- The variables as the package initialises them. -/
def fresh : Globals :=
  { openStates := [], ch := 0, source := [], current := 0, peeked := 1, hNum := 0,
    preserveNewLines := false }

/-- `lastState()`: `openStates[len(openStates)-1]`; every call site checks
`len(openStates) > 0` first. -/
def lastState (g : Globals) : Option Nat := g.openStates[g.openStates.length - 1]?

/-- `pushState(state)`. -/
def pushState (g : Globals) (state : Nat) : Globals :=
  { g with openStates := g.openStates ++ [state] }

/-- `remLastState()`: `openStates[0:len(openStates)-1]`. -/
def remLastState (g : Globals) : Globals :=
  { g with openStates := g.openStates.take (g.openStates.length - 1) }

/-- `next()`. -/
def next (g : Globals) : Globals :=
  { g with current := g.current + 1, peeked := g.peeked + 1 }

/-- `curr()`: `source[current]`, a panic when out of range. -/
def curr (g : Globals) : Res Nat :=
  match g.source[g.current]? with
  | some b => .ok b
  | none => .panic

/-- `peek()`: `source[peeked]`, a panic when out of range. -/
def peek (g : Globals) : Res Nat :=
  match g.source[g.peeked]? with
  | some b => .ok b
  | none => .panic

/-- `peek2()`: `source[peeked+1]`, a panic when out of range. -/
def peek2 (g : Globals) : Res Nat :=
  match g.source[g.peeked + 1]? with
  | some b => .ok b
  | none => .panic

/-- The statement `ch = curr()`. -/
def setCh (g : Globals) : Res Globals := do
  let b ← curr g
  pure { g with ch := b }

/-- What a `switch` case hands back to the main loop: go on with the loop, or
leave `compile` with a `return`. -/
inductive Flow where
  | loop (g : Globals) (compiled : List Nat)
  | ret (g : Globals) (result : List Nat)
deriving DecidableEq, Repr

/-! ## The cases of the `switch` -/

/-- The case `blockChars["esc"]`. -/
def caseEsc (g : Globals) (compiled : List Nat) : Res Flow := do
  let g ← setCh (next g)
  pure (.loop g (compiled ++ [g.ch]))

/-- The `for ch != blockChars["escapeEnd"] && current < len(source)` loop of
the raw region. -/
def rawLoop : Nat → Globals → List Nat → Res (Globals × List Nat)
  | 0, _, _ => .timeout
  | fuel + 1, g, compiled =>
    if g.ch ≠ blockChars.escapeEnd ∧ g.current < g.source.length then do
      let g ← if g.ch = blockChars.esc then setCh (next g) else pure g
      let compiled := compiled ++ [g.ch]
      let g ← setCh (next g)
      if g.ch = blockChars.escapeEnd then pure (g, compiled)
      else rawLoop fuel g compiled
    else pure (g, compiled)

/-- The case `blockChars["escapeBegin"]`. -/
def caseEscapeBegin (g : Globals) (compiled : List Nat) : Res Flow := do
  let g ← setCh (next g)
  let (g, compiled) ← rawLoop (g.source.length + 1) g compiled
  pure (.loop g compiled)

/-- The three toggle cases: `state` is the stack tag, `opening` and `closing`
the two tags written. -/
def caseToggle (state : Nat) (opening closing : List Nat) (g : Globals)
    (compiled : List Nat) : Res Flow :=
  if 0 < g.openStates.length ∧ lastState g = some state then
    pure (.loop (remLastState g) (compiled ++ closing))
  else
    pure (.loop (pushState g state) (compiled ++ opening))

/-- The case `blockChars["bold"]`. -/
def caseBold (g : Globals) (compiled : List Nat) : Res Flow :=
  caseToggle bold (ascii "<strong>") (ascii "</strong>") g compiled

/-- The case `blockChars["italics"]`. -/
def caseItalics (g : Globals) (compiled : List Nat) : Res Flow :=
  caseToggle italics (ascii "<em>") (ascii "</em>") g compiled

/-- The case `blockChars["underline"]`. -/
def caseUnderline (g : Globals) (compiled : List Nat) : Res Flow :=
  caseToggle underline (ascii "<u>") (ascii "</u>") g compiled

/-- The condition `peek() == blockChars["line"] && peek2() == blockChars["line"]`;
`peek2()` is evaluated only when the left operand holds. -/
def threeDashes (g : Globals) : Res Bool := do
  let p ← peek g
  if p = blockChars.line then do
    let q ← peek2 g
    pure (decide (q = blockChars.line))
  else pure false

/-- The case `blockChars["line"]`. -/
def caseLine (g : Globals) (compiled : List Nat) : Res Flow := do
  let c ← threeDashes g
  if c then
    if g.openStates.length = 0 then do
      let g ← setCh (next (next g))
      pure (.loop g (compiled ++ ascii "<hr>"))
    else pure (.loop g (compiled ++ [g.ch]))
  else pure (.loop g (compiled ++ [g.ch]))

/-- The case `blockChars["newline"]`. -/
def caseNewline (g : Globals) (compiled : List Nat) : Res Flow := do
  let p ← peek g
  if p = blockChars.newline then
    pure (.loop (next g) (compiled ++ ascii "<br>"))
  else pure (.loop g (compiled ++ [g.ch]))

/-- The `for ch == '#'` loop of the heading case. -/
def headingLoop : Nat → Globals → Res Globals
  | 0, _ => .timeout
  | fuel + 1, g =>
    if g.ch = 35 then do
      let g ← setCh (next { g with hNum := g.hNum + 1 })
      if g.hNum = 6 then pure g else headingLoop fuel g
    else pure g

/-- The case `blockChars["heading"]`. -/
def caseHeading (g : Globals) (compiled : List Nat) : Res Flow := do
  let g ← setCh (next { g with hNum := 1 })
  let g ← headingLoop (g.source.length + 1) g
  let g := { g with current := g.current - 1, peeked := g.peeked - 1 }
  pure (.loop (pushState g heading) (compiled ++ (ascii "<h" ++ itoa g.hNum ++ ascii ">")))

/-- The case of the byte 10 (line feed). -/
def caseLF (g : Globals) (compiled : List Nat) : Res Flow :=
  if 0 < g.openStates.length ∧ lastState g = some heading then
    let g := remLastState g
    pure (.loop { g with hNum := 0 } (compiled ++ (ascii "</h" ++ itoa g.hNum ++ ascii ">")))
  else if g.preserveNewLines then
    pure (.loop g (compiled ++ ascii "<br>"))
  else pure (.loop g (compiled ++ [g.ch]))

/-- The `for ch != ']' && current < len(source)` loop that collects a buffer
(the alt text of a link, the height of an image). -/
def altLoop : Nat → Globals → List Nat → Res (Globals × List Nat)
  | 0, _, _ => .timeout
  | fuel + 1, g, alt =>
    if g.ch ≠ 93 ∧ g.current < g.source.length then do
      let alt := alt ++ [g.ch]
      let g ← setCh (next g)
      altLoop fuel g alt
    else pure (g, alt)

/-- The inner loop `for ch == ')' && paropen != 0` of the URL scan. -/
def urlInner : Nat → Globals → List Nat → Nat → Res (Globals × List Nat × Nat)
  | 0, _, _, _ => .timeout
  | fuel + 1, g, url, paropen =>
    if g.ch = 41 ∧ paropen ≠ 0 then do
      let url := url ++ [g.ch]
      let g ← setCh (next g)
      urlInner fuel g url (paropen - 1)
    else pure (g, url, paropen)

/-- The loop `for ch != ')' && current < len(source)` of the URL scan. -/
def urlLoop : Nat → Globals → List Nat → Nat → Res (Globals × List Nat)
  | 0, _, _, _ => .timeout
  | fuel + 1, g, url, paropen =>
    if g.ch ≠ 41 ∧ g.current < g.source.length then do
      let paropen := if g.ch = 40 then paropen + 1 else paropen
      let url := url ++ [g.ch]
      let g ← setCh (next g)
      let (g, url, paropen) ← urlInner (g.source.length + 1) g url paropen
      urlLoop fuel g url paropen
    else pure (g, url)

/-- The case `blockChars["link"]`. -/
def caseLink (g : Globals) (compiled : List Nat) : Res Flow := do
  let g ← setCh (next g)
  if g.ch = 91 then do
    let compiled := compiled ++ ascii "\n<a href=\""
    let g ← setCh (next g)
    let (g, alt) ← altLoop (g.source.length + 1) g []
    let g ← setCh (next g)
    if g.ch ≠ 40 then pure (.ret g [])
    else do
      let g ← setCh (next g)
      let (g, url) ← urlLoop (g.source.length + 1) g [] 0
      let g ← setCh (next g)
      let compiled := compiled ++ url ++ ascii "\">"
      let compiled := if alt = [] then compiled ++ url else compiled ++ alt
      pure (.loop g (compiled ++ ascii "</a>\n"))
  else pure (.loop g compiled)

/-- The loop `for ch != ':' || peek() != ':'` that collects the width;
`peek()` is evaluated only when `ch` is a colon. -/
def widthLoop : Nat → Globals → List Nat → Res (Globals × List Nat)
  | 0, _, _ => .timeout
  | fuel + 1, g, w =>
    if g.ch ≠ 58 then do
      let w := w ++ [g.ch]
      let g ← setCh (next g)
      widthLoop fuel g w
    else do
      let p ← peek g
      if p ≠ 58 then do
        let w := w ++ [g.ch]
        let g ← setCh (next g)
        widthLoop fuel g w
      else pure (g, w)

/-- The outer loop of the bracketed part of an image; it returns the
variables together with `alt`, `w` and `h`. -/
def imgAltLoop : Nat → Globals → List Nat →
    Res (Globals × List Nat × List Nat × List Nat)
  | 0, _, _ => .timeout
  | fuel + 1, g, alt =>
    if g.ch ≠ 93 ∧ g.current < g.source.length then do
      let dims ← if g.ch = 58 then do
          let p ← peek g
          pure (decide (p = 58))
        else pure false
      if dims then do
        let g ← setCh (next (next g))
        let (g, w) ← widthLoop (g.source.length + 1) g []
        let g ← setCh (next (next g))
        let (g, h) ← altLoop (g.source.length + 1) g []
        pure (g, alt, w, h)
      else do
        let alt := alt ++ [g.ch]
        let g ← setCh (next g)
        imgAltLoop fuel g alt
    else pure (g, alt, [], [])

/-- The case `blockChars["image"]`. -/
def caseImage (g : Globals) (compiled : List Nat) : Res Flow := do
  let g ← setCh (next g)
  if g.ch = 91 then do
    let compiled := compiled ++ ascii "\n<img src=\""
    let g ← setCh (next g)
    let (g, alt, w, h) ← imgAltLoop (g.source.length + 1) g []
    let g ← setCh (next g)
    if g.ch ≠ 40 then pure (.ret g [])
    else do
      let g ← setCh (next g)
      let (g, url) ← urlLoop (g.source.length + 1) g [] 0
      let g ← setCh (next g)
      let compiled := compiled ++ url ++ ascii "\" alt=\""
      let compiled := if alt = [] then compiled ++ url else compiled ++ alt
      let compiled := compiled ++ ascii "\""
      let compiled := if w ≠ [] then compiled ++ ascii " width=\"" ++ w ++ [34] else compiled
      let compiled := if h ≠ [] then compiled ++ ascii " height=\"" ++ h ++ [34] else compiled
      pure (.loop g (compiled ++ ascii ">\n"))
  else pure (.loop g compiled)

/-- The `for ch != blockChars["code"] && current < len(source)` loop of the
code span. -/
def codeLoop : Nat → Globals → List Nat → Res (Globals × List Nat)
  | 0, _, _ => .timeout
  | fuel + 1, g, compiled =>
    if g.ch ≠ blockChars.code ∧ g.current < g.source.length then do
      let (g, compiled) ← if g.ch = blockChars.esc then do
          let g ← setCh (next g)
          let compiled := compiled ++ [g.ch]
          let g ← setCh (next g)
          pure (g, compiled)
        else pure (g, compiled)
      let compiled := compiled ++ [g.ch]
      let g ← setCh (next g)
      if g.ch = blockChars.code ∨ g.current ≥ g.source.length then pure (g, compiled)
      else codeLoop fuel g compiled
    else pure (g, compiled)

/-- The case `blockChars["code"]`. -/
def caseCode (g : Globals) (compiled : List Nat) : Res Flow := do
  let g ← setCh (next g)
  let compiled := compiled ++ ascii "<pre>"
  let (g, compiled) ← codeLoop (g.source.length + 1) g compiled
  pure (.loop g (compiled ++ ascii "</pre>"))

/-- The body of the main loop: `ch = curr()` and the `switch ch`. -/
def body (g : Globals) (compiled : List Nat) : Res Flow := do
  let g ← setCh g
  if g.ch = blockChars.esc then caseEsc g compiled
  else if g.ch = blockChars.escapeBegin then caseEscapeBegin g compiled
  else if g.ch = blockChars.bold then caseBold g compiled
  else if g.ch = blockChars.italics then caseItalics g compiled
  else if g.ch = blockChars.underline then caseUnderline g compiled
  else if g.ch = blockChars.line then caseLine g compiled
  else if g.ch = blockChars.newline then caseNewline g compiled
  else if g.ch = blockChars.heading then caseHeading g compiled
  else if g.ch = 10 then caseLF g compiled
  else if g.ch = blockChars.link then caseLink g compiled
  else if g.ch = blockChars.image then caseImage g compiled
  else if g.ch = blockChars.code then caseCode g compiled
  else pure (.loop g (compiled ++ [g.ch]))

/-- The main loop `for ; current < len(source); next()` with the final
`return compiled.String()`. -/
def mainLoop : Nat → Globals → List Nat → Res (List Nat × Globals)
  | 0, _, _ => .timeout
  | fuel + 1, g, compiled =>
    if g.current < g.source.length then
      match body g compiled with
      | .ok (.loop g1 compiled1) => mainLoop fuel (next g1) compiled1
      | .ok (.ret g1 result) => .ok (result, g1)
      | .panic => .panic
      | .timeout => .timeout
    else .ok (compiled, g)

/-- The function `compile(src)`, run on the package-level variables `g`: the
returned string together with the variables as the call leaves them. -/
def compile (g : Globals) (src : List Nat) : Res (List Nat × Globals) :=
  mainLoop (src.length + 1) { g with source := src } []

/-- The string returned by a call of `compile`. -/
def output (r : Res (List Nat × Globals)) : Res (List Nat) :=
  match r with
  | .ok (s, _) => .ok s
  | .panic => .panic
  | .timeout => .timeout

/-- The open-state stack a call of `compile` leaves behind. -/
def stackAfter (r : Res (List Nat × Globals)) : Res (List Nat) :=
  match r with
  | .ok (_, g) => .ok g.openStates
  | .panic => .panic
  | .timeout => .timeout

/-! ## The copy of the compiler in `src/main.go`

`main.go` declares the same states, `blockChars`, variables and the functions
`lastState`, `pushState`, `remLastState`, `next`, `curr`, `peek`, `peek2` word
for word; they are shared with the embedding above.  Its `compile` builds the
result as a `string` with `compiled += ...`; a byte is appended as
`string(ch)`.  The toggle cases and the heading case append string literals
only and are shared as well. -/

namespace MainGo

/-- Go's conversion `string(ch)` of a byte `ch`: the UTF-8 encoding of the
code point with that number, one byte below 0x80 and two bytes from 0x80 to
0xFF. -/
def string (ch : Nat) : List Nat :=
  if ch < 128 then [ch] else [192 + ch / 64, 128 + ch % 64]

/-- The case `blockChars["esc"]` of `main.go`. -/
def caseEsc (g : Globals) (compiled : List Nat) : Res Flow := do
  let g ← setCh (next g)
  pure (.loop g (compiled ++ string g.ch))

/-- The loop of the raw region of `main.go`. -/
def rawLoop : Nat → Globals → List Nat → Res (Globals × List Nat)
  | 0, _, _ => .timeout
  | fuel + 1, g, compiled =>
    if g.ch ≠ blockChars.escapeEnd ∧ g.current < g.source.length then do
      let g ← if g.ch = blockChars.esc then setCh (next g) else pure g
      let compiled := compiled ++ string g.ch
      let g ← setCh (next g)
      if g.ch = blockChars.escapeEnd then pure (g, compiled)
      else rawLoop fuel g compiled
    else pure (g, compiled)

/-- The case `blockChars["escapeBegin"]` of `main.go`. -/
def caseEscapeBegin (g : Globals) (compiled : List Nat) : Res Flow := do
  let g ← setCh (next g)
  let (g, compiled) ← rawLoop (g.source.length + 1) g compiled
  pure (.loop g compiled)

/-- The case `blockChars["line"]` of `main.go`. -/
def caseLine (g : Globals) (compiled : List Nat) : Res Flow := do
  let c ← threeDashes g
  if c then
    if g.openStates.length = 0 then do
      let g ← setCh (next (next g))
      pure (.loop g (compiled ++ ascii "<hr>"))
    else pure (.loop g (compiled ++ string g.ch))
  else pure (.loop g (compiled ++ string g.ch))

/-- The case `blockChars["newline"]` of `main.go`. -/
def caseNewline (g : Globals) (compiled : List Nat) : Res Flow := do
  let p ← peek g
  if p = blockChars.newline then
    pure (.loop (next g) (compiled ++ ascii "<br>"))
  else pure (.loop g (compiled ++ string g.ch))

/-- The case of the byte 10 (line feed) of `main.go`. -/
def caseLF (g : Globals) (compiled : List Nat) : Res Flow :=
  if 0 < g.openStates.length ∧ lastState g = some heading then
    let g := remLastState g
    pure (.loop { g with hNum := 0 } (compiled ++ (ascii "</h" ++ itoa g.hNum ++ ascii ">")))
  else if g.preserveNewLines then
    pure (.loop g (compiled ++ ascii "<br>"))
  else pure (.loop g (compiled ++ string g.ch))

/-- The `for ch != ']' && current < len(source)` loop of `main.go`, on the
string `alt` (or `h`). -/
def altLoop : Nat → Globals → List Nat → Res (Globals × List Nat)
  | 0, _, _ => .timeout
  | fuel + 1, g, alt =>
    if g.ch ≠ 93 ∧ g.current < g.source.length then do
      let alt := alt ++ string g.ch
      let g ← setCh (next g)
      altLoop fuel g alt
    else pure (g, alt)

/-- The inner loop `for ch == ')' && paropen != 0` of the URL scan of
`main.go`. -/
def urlInner : Nat → Globals → List Nat → Nat → Res (Globals × List Nat × Nat)
  | 0, _, _, _ => .timeout
  | fuel + 1, g, url, paropen =>
    if g.ch = 41 ∧ paropen ≠ 0 then do
      let url := url ++ string g.ch
      let g ← setCh (next g)
      urlInner fuel g url (paropen - 1)
    else pure (g, url, paropen)

/-- The loop `for ch != ')' && current < len(source)` of the URL scan of
`main.go`. -/
def urlLoop : Nat → Globals → List Nat → Nat → Res (Globals × List Nat)
  | 0, _, _, _ => .timeout
  | fuel + 1, g, url, paropen =>
    if g.ch ≠ 41 ∧ g.current < g.source.length then do
      let paropen := if g.ch = 40 then paropen + 1 else paropen
      let url := url ++ string g.ch
      let g ← setCh (next g)
      let (g, url, paropen) ← urlInner (g.source.length + 1) g url paropen
      urlLoop fuel g url paropen
    else pure (g, url)

/-- The case `blockChars["link"]` of `main.go`. -/
def caseLink (g : Globals) (compiled : List Nat) : Res Flow := do
  let g ← setCh (next g)
  if g.ch = 91 then do
    let compiled := compiled ++ ascii "\n<a href=\""
    let g ← setCh (next g)
    let (g, alt) ← altLoop (g.source.length + 1) g []
    let g ← setCh (next g)
    if g.ch ≠ 40 then pure (.ret g [])
    else do
      let g ← setCh (next g)
      let (g, url) ← urlLoop (g.source.length + 1) g [] 0
      let g ← setCh (next g)
      let compiled := compiled ++ url ++ ascii "\">"
      let compiled := if alt = [] then compiled ++ url else compiled ++ alt
      pure (.loop g (compiled ++ ascii "</a>\n"))
  else pure (.loop g compiled)

/-- The loop `for ch != ':' || peek() != ':'` of `main.go`. -/
def widthLoop : Nat → Globals → List Nat → Res (Globals × List Nat)
  | 0, _, _ => .timeout
  | fuel + 1, g, w =>
    if g.ch ≠ 58 then do
      let w := w ++ string g.ch
      let g ← setCh (next g)
      widthLoop fuel g w
    else do
      let p ← peek g
      if p ≠ 58 then do
        let w := w ++ string g.ch
        let g ← setCh (next g)
        widthLoop fuel g w
      else pure (g, w)

/-- The outer loop of the bracketed part of an image of `main.go`. -/
def imgAltLoop : Nat → Globals → List Nat →
    Res (Globals × List Nat × List Nat × List Nat)
  | 0, _, _ => .timeout
  | fuel + 1, g, alt =>
    if g.ch ≠ 93 ∧ g.current < g.source.length then do
      let dims ← if g.ch = 58 then do
          let p ← peek g
          pure (decide (p = 58))
        else pure false
      if dims then do
        let g ← setCh (next (next g))
        let (g, w) ← widthLoop (g.source.length + 1) g []
        let g ← setCh (next (next g))
        let (g, h) ← altLoop (g.source.length + 1) g []
        pure (g, alt, w, h)
      else do
        let alt := alt ++ string g.ch
        let g ← setCh (next g)
        imgAltLoop fuel g alt
    else pure (g, alt, [], [])

/-- The case `blockChars["image"]` of `main.go`; `string('"')` is the one
byte 34. -/
def caseImage (g : Globals) (compiled : List Nat) : Res Flow := do
  let g ← setCh (next g)
  if g.ch = 91 then do
    let compiled := compiled ++ ascii "\n<img src=\""
    let g ← setCh (next g)
    let (g, alt, w, h) ← imgAltLoop (g.source.length + 1) g []
    let g ← setCh (next g)
    if g.ch ≠ 40 then pure (.ret g [])
    else do
      let g ← setCh (next g)
      let (g, url) ← urlLoop (g.source.length + 1) g [] 0
      let g ← setCh (next g)
      let compiled := compiled ++ url ++ ascii "\" alt=\""
      let compiled := if alt = [] then compiled ++ url else compiled ++ alt
      let compiled := compiled ++ ascii "\""
      let compiled := if w ≠ [] then compiled ++ ascii " width=\"" ++ w ++ string 34 else compiled
      let compiled := if h ≠ [] then compiled ++ ascii " height=\"" ++ h ++ string 34 else compiled
      pure (.loop g (compiled ++ ascii ">\n"))
  else pure (.loop g compiled)

/-- The loop of the code span of `main.go`. -/
def codeLoop : Nat → Globals → List Nat → Res (Globals × List Nat)
  | 0, _, _ => .timeout
  | fuel + 1, g, compiled =>
    if g.ch ≠ blockChars.code ∧ g.current < g.source.length then do
      let (g, compiled) ← if g.ch = blockChars.esc then do
          let g ← setCh (next g)
          let compiled := compiled ++ string g.ch
          let g ← setCh (next g)
          pure (g, compiled)
        else pure (g, compiled)
      let compiled := compiled ++ string g.ch
      let g ← setCh (next g)
      if g.ch = blockChars.code ∨ g.current ≥ g.source.length then pure (g, compiled)
      else codeLoop fuel g compiled
    else pure (g, compiled)

/-- The case `blockChars["code"]` of `main.go`. -/
def caseCode (g : Globals) (compiled : List Nat) : Res Flow := do
  let g ← setCh (next g)
  let compiled := compiled ++ ascii "<pre>"
  let (g, compiled) ← codeLoop (g.source.length + 1) g compiled
  pure (.loop g (compiled ++ ascii "</pre>"))

/-- The body of the main loop of `main.go`. -/
def body (g : Globals) (compiled : List Nat) : Res Flow := do
  let g ← setCh g
  if g.ch = blockChars.esc then caseEsc g compiled
  else if g.ch = blockChars.escapeBegin then caseEscapeBegin g compiled
  else if g.ch = blockChars.bold then caseBold g compiled
  else if g.ch = blockChars.italics then caseItalics g compiled
  else if g.ch = blockChars.underline then caseUnderline g compiled
  else if g.ch = blockChars.line then caseLine g compiled
  else if g.ch = blockChars.newline then caseNewline g compiled
  else if g.ch = blockChars.heading then caseHeading g compiled
  else if g.ch = 10 then caseLF g compiled
  else if g.ch = blockChars.link then caseLink g compiled
  else if g.ch = blockChars.image then caseImage g compiled
  else if g.ch = blockChars.code then caseCode g compiled
  else pure (.loop g (compiled ++ string g.ch))

/-- The main loop of `main.go` with the final `return compiled`. -/
def mainLoop : Nat → Globals → List Nat → Res (List Nat × Globals)
  | 0, _, _ => .timeout
  | fuel + 1, g, compiled =>
    if g.current < g.source.length then
      match body g compiled with
      | .ok (.loop g1 compiled1) => mainLoop fuel (next g1) compiled1
      | .ok (.ret g1 result) => .ok (result, g1)
      | .panic => .panic
      | .timeout => .timeout
    else .ok (compiled, g)

/-- The function `compile(src)` of `main.go`, run on the variables `g`. -/
def compile (g : Globals) (src : List Nat) : Res (List Nat × Globals) :=
  mainLoop (src.length + 1) { g with source := src } []

end MainGo

/-! ## Vocabulary of the specification -/

/-- The markup trigger bytes: backslash, `{`, `*`, `/`, `_`, `-`, `;`, `#`,
`@`, `!` and the backtick. -/
def isTrigger (b : Nat) : Prop :=
  b = 92 ∨ b = 123 ∨ b = 42 ∨ b = 47 ∨ b = 95 ∨ b = 45 ∨ b = 59 ∨ b = 35 ∨ b = 64 ∨
    b = 33 ∨ b = 96

instance : DecidablePred isTrigger := fun b => by unfold isTrigger; infer_instance

/-- A text without any markup trigger byte. -/
def TriggerFree (t : List Nat) : Prop := ∀ b ∈ t, ¬ isTrigger b

instance : DecidablePred TriggerFree := fun t => by unfold TriggerFree; infer_instance

/-- The part of the source from the cursor on. -/
def rest (g : Globals) : List Nat := g.source.drop g.current

/-- Text segments joined by the byte `c`: `t0 c t1 c t2 ...`. -/
def joined (c : Nat) : List (List Nat) → List Nat
  | [] => []
  | t :: ts =>
    match ts with
    | [] => t
    | _ :: _ => t ++ c :: joined c ts

/-- The segments with the tags `opening` and `closing` written alternately
between them; `isOpen` tells whether the construct is open at the start. -/
def alternate (opening closing : List Nat) : Bool → List (List Nat) → List Nat
  | _, [] => []
  | isOpen, t :: ts =>
    match ts with
    | [] => t
    | _ :: _ => t ++ (if isOpen then closing else opening)
        ++ alternate opening closing (!isOpen) ts

/-- The three toggle constructs: trigger byte, stack tag, opening tag and
closing tag. -/
def toggles : List (Nat × Nat × List Nat × List Nat) :=
  [ (blockChars.bold, bold, ascii "<strong>", ascii "</strong>"),
    (blockChars.italics, italics, ascii "<em>", ascii "</em>"),
    (blockChars.underline, underline, ascii "<u>", ascii "</u>") ]

/-- The variables `g1` are the variables `g` with the cursor and the lookahead
index moved forward by `k` and another byte in `ch`. -/
def Moved (g g1 : Globals) (k : Nat) : Prop :=
  g1.source = g.source ∧ g1.current = g.current + k ∧ g1.peeked = g.peeked + k ∧
    g1.openStates = g.openStates ∧ g1.hNum = g.hNum ∧
    g1.preserveNewLines = g.preserveNewLines

/-- A piece of the body of a raw region or of a code span: a byte that stands
for itself, or an escape pair, a backslash followed by the byte `x`. -/
inductive Piece where
  | byte (b : Nat)
  | pair (x : Nat)
deriving DecidableEq, Repr

/-- The bytes of a piece as they stand in the source. -/
def Piece.bytes : Piece → List Nat
  | .byte b => [b]
  | .pair x => [92, x]

/-- The byte a piece stands for. -/
def Piece.value : Piece → Nat
  | .byte b => b
  | .pair x => x

/-- A piece that can stand in a region closed by the byte `d`: a plain byte is
neither `d` nor the backslash, an escape pair may hold any byte. -/
def Piece.Avoids (d : Nat) : Piece → Prop
  | .byte b => b ≠ d ∧ b ≠ 92
  | .pair _ => True

instance (d : Nat) : DecidablePred (Piece.Avoids d) := fun p => by
  cases p <;> unfold Piece.Avoids <;> infer_instance

/-- The source text of a body made of pieces. -/
def encode (ps : List Piece) : List Nat := (ps.map Piece.bytes).flatten

/-- The body with each escape pair replaced by its byte and every other byte
copied. -/
def unescape (ps : List Piece) : List Nat := ps.map Piece.value

/-- Two calls of `compile` in a row, the first on fresh variables and the
second on the variables the first call leaves behind: the string returned by
the second call. -/
def compileAfter (s1 s2 : List Nat) : Res (List Nat) :=
  match compile fresh s1 with
  | .ok (_, g) => output (compile g s2)
  | .panic => .panic
  | .timeout => .timeout

/-- A URL whose parentheses are balanced up to `d` parentheses already open:
every part of it from the start has at most `d` more `)` than `(`, and the
whole has exactly `d` more. -/
def BalancedFrom (d : Nat) (u : List Nat) : Prop :=
  (∀ k, k ≤ u.length → (u.take k).count 41 ≤ d + (u.take k).count 40) ∧
    d + u.count 40 = u.count 41

/-- A URL whose parentheses are balanced: every part of it from the start has
at least as many `(` as `)`, and the totals are equal. -/
def Balanced (u : List Nat) : Prop := BalancedFrom 0 u

instance (d : Nat) : DecidablePred (BalancedFrom d) := fun u => by
  unfold BalancedFrom; infer_instance

instance : DecidablePred Balanced := fun u => by unfold Balanced; infer_instance

/-- Whether a text has two colons in a row. -/
def doubleColon : List Nat → Bool
  | [] => false
  | a :: r => (a == 58 && r.head? == some 58) || doubleColon r

/-- An alt text without two colons in a row. -/
def NoDoubleColon (alt : List Nat) : Prop := doubleColon alt = false

instance : DecidablePred NoDoubleColon := fun alt =>
  inferInstanceAs (Decidable (doubleColon alt = false))

/-! ## Basic facts -/

@[simp] theorem Res.ok_bind {α β : Type} (a : α) (f : α → Res β) :
    (Res.ok a >>= f) = f a := rfl

@[simp] theorem Res.panic_bind {α β : Type} (f : α → Res β) :
    ((Res.panic : Res α) >>= f) = Res.panic := rfl

@[simp] theorem Res.timeout_bind {α β : Type} (f : α → Res β) :
    ((Res.timeout : Res α) >>= f) = Res.timeout := rfl

@[simp] theorem Res.pure_eq {α : Type} (a : α) : (pure a : Res α) = Res.ok a := rfl

theorem rest_lt {g : Globals} {c : Nat} {r : List Nat} (h : rest g = c :: r) :
    g.current < g.source.length := by
  unfold rest at h
  by_contra hn
  rw [List.drop_eq_nil_of_le (by omega)] at h
  cases h

theorem rest_getElem {g : Globals} {c : Nat} {r : List Nat} (h : rest g = c :: r) :
    g.source[g.current]? = some c := by
  unfold rest at h
  have h0 : (g.source.drop g.current)[0]? = some c := by rw [h]; simp
  simpa using h0

theorem rest_curr {g : Globals} {c : Nat} {r : List Nat} (h : rest g = c :: r) :
    curr g = .ok c := by
  unfold curr
  rw [rest_getElem h]

theorem rest_setCh {g : Globals} {c : Nat} {r : List Nat} (h : rest g = c :: r) :
    setCh g = .ok { g with ch := c } := by
  simp [setCh, rest_curr h]

theorem rest_next {g : Globals} {c : Nat} {r : List Nat} (h : rest g = c :: r) :
    rest (next g) = r := by
  unfold rest at h ⊢
  have h1 : (g.source.drop g.current).drop 1 = r := by rw [h]; rfl
  simpa [next, Nat.add_comm] using h1

theorem rest_nil_le {g : Globals} (h : rest g = []) : g.source.length ≤ g.current := by
  unfold rest at h
  simpa using h

theorem rest_length (g : Globals) : (rest g).length ≤ g.source.length := by
  simp [rest]

/-- When the cursor is at the end, the main loop returns the buffer. -/
theorem mainLoop_end (fuel : Nat) (g : Globals) (out : List Nat) (h : rest g = []) :
    mainLoop (fuel + 1) g out = .ok (out, g) := by
  have := rest_nil_le h
  rw [mainLoop, if_neg (by omega)]

/-- A byte that is no trigger is copied by the body of the loop, a line feed
provided no heading is on top of the stack and `preserveNewLines` is off. -/
theorem body_plain {g : Globals} {c : Nat} {r : List Nat} (out : List Nat)
    (h : rest g = c :: r) (hc : ¬ isTrigger c)
    (hlf : c = 10 → lastState g ≠ some heading ∧ g.preserveNewLines = false) :
    body g out = .ok (.loop { g with ch := c } (out ++ [c])) := by
  simp only [isTrigger, not_or] at hc
  obtain ⟨h1, h2, h3, h4, h5, h6, h7, h8, h9, h10, h11⟩ := hc
  by_cases h10' : c = 10
  · obtain ⟨ha, hb⟩ := hlf h10'
    subst h10'
    simp [body, rest_setCh h, caseLF, lastState] at ha ⊢
    simp [ha, hb]
  · simp [body, rest_setCh h, *]

/-- The main loop copies a trigger-free stretch of text. -/
theorem mainLoop_plain (t : List Nat) : ∀ (r : List Nat) (fuel : Nat) (g : Globals)
    (out : List Nat), rest g = t ++ r → TriggerFree t →
    (10 ∈ t → lastState g ≠ some heading ∧ g.preserveNewLines = false) →
    ∃ ch1, mainLoop (fuel + t.length) g out
      = mainLoop fuel { g with current := g.current + t.length,
                               peeked := g.peeked + t.length, ch := ch1 } (out ++ t) := by
  induction t with
  | nil => intro r fuel g out _ _ _; exact ⟨g.ch, by simp⟩
  | cons c t ih =>
    intro r fuel g out h ht hlf
    have hr : rest g = c :: (t ++ r) := by simpa using h
    have hb := body_plain out hr (ht c (by simp)) (fun hc => hlf (by simp [hc]))
    have hn : rest (next { g with ch := c }) = t ++ r := rest_next (c := c) (by simpa [rest] using hr)
    obtain ⟨ch1, hi⟩ := ih r fuel (next { g with ch := c }) (out ++ [c]) hn
      (fun b hb => ht b (by simp [hb])) (fun hc => by simpa [next, lastState] using hlf (by simp [hc]))
    refine ⟨ch1, ?_⟩
    have hf : fuel + (c :: t).length = (fuel + t.length) + 1 := by simp; omega
    rw [hf, mainLoop, if_pos (rest_lt hr), hb]
    simp only
    rw [hi]
    simp [next, Nat.add_assoc, Nat.add_comm 1]

/-- The remaining input of a fresh call is the whole source. -/
theorem rest_fresh (src : List Nat) : rest { fresh with source := src } = src := by
  simp [rest, fresh]

theorem joined_single (c : Nat) (t : List Nat) : joined c [t] = t := rfl

theorem joined_cons_cons (c : Nat) (t t2 : List Nat) (ts : List (List Nat)) :
    joined c (t :: t2 :: ts) = t ++ c :: joined c (t2 :: ts) := rfl

theorem alternate_single (op cl : List Nat) (b : Bool) (t : List Nat) :
    alternate op cl b [t] = t := rfl

theorem alternate_cons_cons (op cl : List Nat) (b : Bool) (t t2 : List Nat)
    (ts : List (List Nat)) :
    alternate op cl b (t :: t2 :: ts)
      = t ++ (if b then cl else op) ++ alternate op cl (!b) (t2 :: ts) := rfl

/-- On a toggle byte the body of the loop runs the toggle case. -/
theorem body_toggle {g : Globals} {r : List Nat} {c st : Nat} {op cl : List Nat}
    (out : List Nat) (hm : (c, st, op, cl) ∈ toggles) (h : rest g = c :: r) :
    body g out = caseToggle st op cl { g with ch := c } out := by
  simp only [toggles, List.mem_cons, Prod.mk.injEq, List.mem_singleton, List.not_mem_nil,
    or_false] at hm
  rcases hm with ⟨rfl, rfl, rfl, rfl⟩ | ⟨rfl, rfl, rfl, rfl⟩ | ⟨rfl, rfl, rfl, rfl⟩ <;>
    simp [body, rest_setCh h, caseBold, caseItalics, caseUnderline]

/-- The top of the stack as `lastState` reads it. -/
theorem lastState_eq (g : Globals) : lastState g = g.openStates.getLast? := by
  simp [lastState, List.getLast?_eq_getElem?]

/-- A toggle case looks at the top of the stack only. -/
theorem caseToggle_eq (st : Nat) (op cl : List Nat) (g : Globals) (out : List Nat) :
    caseToggle st op cl g out
      = .ok (if g.openStates.getLast? = some st
          then .loop { g with openStates := g.openStates.dropLast } (out ++ cl)
          else .loop { g with openStates := g.openStates ++ [st] } (out ++ op)) := by
  unfold caseToggle
  rw [lastState_eq]
  by_cases h : g.openStates.getLast? = some st
  · have hpos : 0 < g.openStates.length := by
      cases hs : g.openStates with
      | nil => simp [hs] at h
      | cons a l => simp
    simp [h, hpos, remLastState, List.dropLast_eq_take]
  · simp [h, pushState]

/-- Any amount of fuel above the length of the remaining input splits into the
rounds for a stretch of it and the fuel left. -/
theorem fuel_split {n k : Nat} (h : k < n) : ∃ m, n = (m + 1) + k := ⟨n - k - 1, by omega⟩

/-- The main loop on toggle-separated trigger-free segments: the tags
alternate, starting from a stack that is empty or holds the one open toggle. -/
theorem mainLoop_toggles {c st : Nat} {op cl : List Nat} (hm : (c, st, op, cl) ∈ toggles)
    (ts : List (List Nat)) : ∀ (isOpen : Bool) (fuel : Nat) (g : Globals) (out : List Nat),
    (∀ t ∈ ts, TriggerFree t) → rest g = joined c ts →
    g.openStates = (if isOpen then [st] else []) → g.preserveNewLines = false →
    (joined c ts).length < fuel →
    output (mainLoop fuel g out) = .ok (out ++ alternate op cl isOpen ts) := by
  have hst : st ≠ heading := by
    simp only [toggles, List.mem_cons, Prod.mk.injEq, List.mem_singleton, List.not_mem_nil,
      or_false] at hm
    rcases hm with ⟨_, rfl, _⟩ | ⟨_, rfl, _⟩ | ⟨_, rfl, _⟩ <;> decide
  induction ts with
  | nil =>
    intro isOpen fuel g out _ hr _ _ hf
    obtain ⟨m, rfl⟩ := fuel_split hf
    simp only [joined] at hr
    simp [joined, mainLoop_end _ _ _ hr, output, alternate]
  | cons t ts ih =>
    intro isOpen fuel g out htf hr hs hp hf
    have hlast : lastState g ≠ some heading := by
      rw [lastState_eq, hs]
      cases isOpen <;> simp [hst]
    cases ts with
    | nil =>
      rw [joined_single] at hr hf
      obtain ⟨m, rfl⟩ := fuel_split hf
      obtain ⟨ch1, h1⟩ := mainLoop_plain t [] (m + 1) g out (by simpa using hr)
        (htf t (by simp)) (fun _ => ⟨hlast, hp⟩)
      rw [h1, mainLoop_end]
      · simp [output, alternate_single]
      · have := congrArg (List.drop t.length) hr
        simpa [rest, Nat.add_comm] using this
    | cons t2 ts =>
      rw [joined_cons_cons] at hr hf
      have hf2 : t.length < fuel := by simp at hf; omega
      obtain ⟨m, rfl⟩ := fuel_split hf2
      obtain ⟨ch1, h1⟩ := mainLoop_plain t (c :: joined c (t2 :: ts)) (m + 1) g out hr
        (htf t (by simp)) (fun _ => ⟨hlast, hp⟩)
      rw [h1]
      have hr1 : rest { g with current := g.current + t.length,
                               peeked := g.peeked + t.length, ch := ch1 }
          = c :: joined c (t2 :: ts) := by
        have := congrArg (List.drop t.length) hr
        simpa [rest, Nat.add_comm] using this
      rw [mainLoop, if_pos (rest_lt hr1), body_toggle _ hm hr1, caseToggle_eq]
      have hlen : (joined c (t2 :: ts)).length < m := by
        simp only [List.length_append, List.length_cons] at hf; omega
      cases isOpen with
      | false =>
        simp only [hs, List.getLast?_nil, reduceCtorEq, if_false]
        rw [ih true m _ _ (fun t ht => htf t (by simp [ht])) (rest_next (c := c) (by simpa [rest] using hr1))
          (by simp [next]) (by simpa [next] using hp) hlen]
        simp [alternate_cons_cons]
      | true =>
        have hst2 : [st].getLast? = some st := by simp
        simp only [hs, if_true, hst2]
        rw [ih false m _ _ (fun t ht => htf t (by simp [ht])) (rest_next (c := c) (by simpa [rest] using hr1))
          (by simp [next]) (by simpa [next] using hp) hlen]
        simp [alternate_cons_cons]

theorem setCh_next {g : Globals} {c d : Nat} {r : List Nat} (h : rest g = c :: d :: r) :
    setCh (next g) = .ok { g with current := g.current + 1, peeked := g.peeked + 1, ch := d } := by
  have := rest_setCh (rest_next h)
  simpa [next] using this

theorem rest_getElem1 {g : Globals} {c d : Nat} {r : List Nat} (h : rest g = c :: d :: r) :
    g.source[g.current + 1]? = some d := by
  have := rest_getElem (rest_next h)
  simpa [next] using this

theorem rest_getElem2 {g : Globals} {c d e : Nat} {r : List Nat}
    (h : rest g = c :: d :: e :: r) : g.source[g.current + 1 + 1]? = some e := by
  have := rest_getElem (rest_next (rest_next h))
  simpa [next] using this

/-- Dropping a stretch of the remaining input moves the cursor over it. -/
theorem rest_skip {g : Globals} {t r : List Nat} (ch1 : Nat) (h : rest g = t ++ r) :
    rest { g with current := g.current + t.length, peeked := g.peeked + t.length, ch := ch1 }
      = r := by
  have := congrArg (List.drop t.length) h
  simpa [rest, Nat.add_comm] using this

/-- The remaining input of a state with the same source and the cursor moved
forward over a stretch `t`. -/
theorem rest_move {g g1 : Globals} {t r : List Nat} (h : rest g = t ++ r)
    (hs : g1.source = g.source) (hc : g1.current = g.current + t.length) : rest g1 = r := by
  have := congrArg (List.drop t.length) h
  simpa [rest, hs, hc, Nat.add_comm] using this

/-- Three dashes with an empty stack: the body writes `<hr>` and moves the
cursor onto the third dash. -/
theorem body_hr {g : Globals} {r : List Nat} (out : List Nat)
    (h : rest g = 45 :: 45 :: 45 :: r) (hp : g.peeked = g.current + 1)
    (hs : g.openStates = []) :
    body g out = .ok (.loop { g with current := g.current + 2, peeked := g.peeked + 2, ch := 45 }
      (out ++ ascii "<hr>")) := by
  unfold body
  rw [rest_setCh h]
  simp [caseLine, threeDashes, peek, peek2, hp, rest_getElem1 h, rest_getElem2 h, hs, next,
    setCh, curr]

/-- Three dashes with a non-empty stack: the body copies the first dash and
consumes nothing else. -/
theorem body_dash_open {g : Globals} {r : List Nat} (out : List Nat)
    (h : rest g = 45 :: 45 :: 45 :: r) (hp : g.peeked = g.current + 1)
    (hs : g.openStates ≠ []) :
    body g out = .ok (.loop { g with ch := 45 } (out ++ [45])) := by
  unfold body
  rw [rest_setCh h]
  simp [caseLine, threeDashes, peek, peek2, hp, rest_getElem1 h, rest_getElem2 h, hs]

/-- Two semicolons: the body writes `<br>` and moves the cursor onto the
second one. -/
theorem body_br {g : Globals} {r : List Nat} (out : List Nat)
    (h : rest g = 59 :: 59 :: r) (hp : g.peeked = g.current + 1) :
    body g out = .ok (.loop { g with current := g.current + 1, peeked := g.peeked + 1, ch := 59 }
      (out ++ ascii "<br>")) := by
  simp [body, rest_setCh h, caseNewline, peek, hp, rest_getElem1 h, next]

/-- A semicolon followed by another byte is copied. -/
theorem body_semicolon {g : Globals} {c : Nat} {r : List Nat} (out : List Nat)
    (h : rest g = 59 :: c :: r) (hp : g.peeked = g.current + 1) (hc : c ≠ 59) :
    body g out = .ok (.loop { g with ch := 59 } (out ++ [59])) := by
  simp [body, rest_setCh h, caseNewline, peek, hp, rest_getElem1 h, hc]

/-- A semicolon that is the last byte of the source makes the body panic. -/
theorem body_semicolon_last {g : Globals} (out : List Nat)
    (h : rest g = [59]) (hp : g.peeked = g.current + 1) :
    body g out = .panic := by
  have hl : g.source.length ≤ g.current + 1 := by
    have := rest_nil_le (rest_next h)
    simpa [next] using this
  have hn : g.source[g.current + 1]? = none := by simp [hl]
  simp [body, rest_setCh h, caseNewline, peek, hp, hn]

/-- The main loop on a trigger-free text that runs to the end of the source:
the text is appended and the stack is left as it is. -/
theorem mainLoop_plain_end (q : List Nat) (fuel : Nat) (g : Globals) (out : List Nat)
    (hr : rest g = q) (hq : TriggerFree q)
    (hlf : 10 ∈ q → lastState g ≠ some heading ∧ g.preserveNewLines = false)
    (hf : q.length < fuel) :
    ∃ g1, mainLoop fuel g out = .ok (out ++ q, g1) ∧ g1.openStates = g.openStates := by
  obtain ⟨m, rfl⟩ := fuel_split hf
  obtain ⟨ch1, h1⟩ := mainLoop_plain q [] (m + 1) g out (by simpa using hr) hq hlf
  rw [h1, mainLoop_end _ _ _ (rest_skip ch1 (by simpa using hr))]
  exact ⟨_, rfl, rfl⟩

theorem output_plain_end (q : List Nat) (fuel : Nat) (g : Globals) (out : List Nat)
    (hr : rest g = q) (hq : TriggerFree q)
    (hlf : 10 ∈ q → lastState g ≠ some heading ∧ g.preserveNewLines = false)
    (hf : q.length < fuel) :
    output (mainLoop fuel g out) = .ok (out ++ q) := by
  obtain ⟨g1, h, _⟩ := mainLoop_plain_end q fuel g out hr hq hlf hf
  rw [h]; rfl

/-- One round of the main loop whose body goes on with the loop. -/
theorem mainLoop_step {g g1 : Globals} {out out1 : List Nat} {c : Nat} {r : List Nat}
    (fuel : Nat) (h : rest g = c :: r) (hb : body g out = .ok (.loop g1 out1)) :
    mainLoop (fuel + 1) g out = mainLoop fuel (next g1) out1 := by
  rw [mainLoop, if_pos (rest_lt h), hb]

/-- The main loop on `p --- q` with an empty stack. -/
theorem mainLoop_hr (p q : List Nat) (fuel : Nat) (g : Globals) (out : List Nat)
    (hp : TriggerFree p) (hq : TriggerFree q)
    (hr : rest g = p ++ 45 :: 45 :: 45 :: q) (hs : g.openStates = [])
    (hn : g.preserveNewLines = false) (hpk : g.peeked = g.current + 1)
    (hf : (p ++ 45 :: 45 :: 45 :: q).length < fuel) :
    output (mainLoop fuel g out) = .ok (out ++ p ++ ascii "<hr>" ++ q) := by
  have hlast : lastState g ≠ some heading := by simp [lastState, hs]
  have hf2 : p.length < fuel := by simp at hf; omega
  obtain ⟨m, rfl⟩ := fuel_split hf2
  obtain ⟨ch1, h1⟩ := mainLoop_plain p _ (m + 1) g out hr hp (fun _ => ⟨hlast, hn⟩)
  have hr1 := rest_skip ch1 hr
  rw [h1, mainLoop_step m hr1 (body_hr _ hr1 (by simp; omega) (by simpa using hs))]
  rw [output_plain_end q m]
  · exact rest_move (t := [45, 45, 45]) hr1 (by simp [next]) (by simp [next])
  · exact hq
  · exact fun _ => by simpa [lastState, next] using ⟨hlast, hn⟩
  · simp at hf; omega

/-- The main loop on `p ;; q`. -/
theorem mainLoop_br (p q : List Nat) (fuel : Nat) (g : Globals) (out : List Nat)
    (hp : TriggerFree p) (hq : TriggerFree q)
    (hr : rest g = p ++ 59 :: 59 :: q) (hs : lastState g ≠ some heading)
    (hn : g.preserveNewLines = false) (hpk : g.peeked = g.current + 1)
    (hf : (p ++ 59 :: 59 :: q).length < fuel) :
    output (mainLoop fuel g out) = .ok (out ++ p ++ ascii "<br>" ++ q) := by
  have hf2 : p.length < fuel := by simp at hf; omega
  obtain ⟨m, rfl⟩ := fuel_split hf2
  obtain ⟨ch1, h1⟩ := mainLoop_plain p _ (m + 1) g out hr hp (fun _ => ⟨hs, hn⟩)
  have hr1 := rest_skip ch1 hr
  rw [h1, mainLoop_step m hr1 (body_br _ hr1 (by simp; omega))]
  rw [output_plain_end q m]
  · exact rest_move (t := [59, 59]) hr1 (by simp [next]) (by simp [next])
  · exact hq
  · exact fun _ => by simpa [lastState, next] using ⟨hs, hn⟩
  · simp at hf; omega

/-- The main loop on `p ; c q`, where `c` is no trigger: the semicolon is
copied. -/
theorem mainLoop_semicolon (p q : List Nat) (c fuel : Nat) (g : Globals) (out : List Nat)
    (hp : TriggerFree p) (hq : TriggerFree (c :: q))
    (hr : rest g = p ++ 59 :: c :: q) (hs : lastState g ≠ some heading)
    (hn : g.preserveNewLines = false) (hpk : g.peeked = g.current + 1)
    (hf : (p ++ 59 :: c :: q).length < fuel) :
    output (mainLoop fuel g out) = .ok (out ++ p ++ 59 :: c :: q) := by
  have hc : c ≠ 59 := by
    intro h
    exact hq c (by simp) (by simp [isTrigger, h])
  have hf2 : p.length < fuel := by simp at hf; omega
  obtain ⟨m, rfl⟩ := fuel_split hf2
  obtain ⟨ch1, h1⟩ := mainLoop_plain p _ (m + 1) g out hr hp (fun _ => ⟨hs, hn⟩)
  have hr1 := rest_skip ch1 hr
  rw [h1, mainLoop_step m hr1 (body_semicolon _ hr1 (by simp; omega) hc)]
  rw [output_plain_end (c :: q) m]
  · simp
  · exact rest_move (t := [59]) hr1 (by simp [next]) (by simp [next])
  · exact hq
  · exact fun _ => by simpa [lastState, next] using ⟨hs, hn⟩
  · simp at hf; simp; omega

/-- A number below ten is written by `itoa` as its one digit. -/
theorem itoa_digit (n : Nat) (h : n ≤ 9) : itoa n = [48 + n] := by
  interval_cases n <;> rfl

/-- The heading loop on a run of `k` further `#` bytes that ends before the
level passes 6: it counts them and stops on the byte after the run. -/
theorem headingLoop_run (k : Nat) : ∀ (fuel : Nat) (g : Globals) (x : Nat) (r : List Nat),
    rest g = List.replicate k 35 ++ x :: r → (rest g).head? = some g.ch → x ≠ 35 →
    g.hNum + k ≤ 6 → k < fuel →
    headingLoop fuel g = .ok { g with hNum := g.hNum + k, current := g.current + k,
                                      peeked := g.peeked + k, ch := x } := by
  induction k with
  | zero =>
    intro fuel g x r hr hch hx _ hf
    obtain ⟨m, rfl⟩ := fuel_split hf
    have hc : g.ch = x := by
      rw [hr] at hch
      simpa using hch.symm
    rw [Nat.add_zero, headingLoop, if_neg (by rw [hc]; exact hx)]
    subst hc
    rfl
  | succ k ih =>
    intro fuel g x r hr hch hx hn hf
    obtain ⟨m, hm⟩ := fuel_split hf
    have hm2 : fuel = (m + k + 1) + 1 := by omega
    subst hm2
    have hr0 : rest g = 35 :: (List.replicate k 35 ++ x :: r) := by
      simpa [List.replicate_succ] using hr
    have hc : g.ch = 35 := by
      rw [hr0] at hch
      simpa using hch.symm
    obtain ⟨d, r1, hd⟩ : ∃ d r1, List.replicate k 35 ++ x :: r = d :: r1 := by
      cases k with
      | zero => exact ⟨x, r, rfl⟩
      | succ j => exact ⟨35, List.replicate j 35 ++ x :: r, by simp [List.replicate_succ]⟩
    have hr1 : rest (next { g with hNum := g.hNum + 1 }) = d :: r1 := by
      rw [← hd]
      exact rest_next (c := 35) (by simpa [rest] using hr0)
    rw [headingLoop, if_pos hc, rest_setCh hr1]
    simp only [Res.ok_bind]
    by_cases h6 : g.hNum + 1 = 6
    · have hk : k = 0 := by omega
      subst hk
      have hdx : d = x := by
        simp at hd
        exact hd.1.symm
      simp [h6, next, hdx]
    · have := ih (m + k + 1) { next { g with hNum := g.hNum + 1 } with ch := d } x r
        (by rw [hd]; simpa [rest] using hr1) (by simpa [rest] using congrArg List.head? hr1)
        hx (by simp [next]; omega) (by omega)
      simp only [next] at this ⊢
      rw [if_neg h6, this]
      simp [Nat.add_assoc, Nat.add_comm 1 k]

/-- The body on a run of `k + 1` bytes `#` (at most six) followed by another
byte: it writes the opening tag of level `k + 1`, pushes a heading and leaves
the cursor on the last `#`. -/
theorem body_heading {g : Globals} {k x : Nat} {r : List Nat} (out : List Nat)
    (h : rest g = 35 :: (List.replicate k 35 ++ x :: r)) (hx : x ≠ 35) (hk : k ≤ 5) :
    body g out = .ok (.loop { g with hNum := k + 1, current := g.current + k,
                                     peeked := g.peeked + k, ch := x,
                                     openStates := g.openStates ++ [heading] }
      (out ++ (ascii "<h" ++ [48 + (k + 1)] ++ ascii ">"))) := by
  obtain ⟨d, r1, hd⟩ : ∃ d r1, List.replicate k 35 ++ x :: r = d :: r1 := by
    cases k with
    | zero => exact ⟨x, r, rfl⟩
    | succ j => exact ⟨35, List.replicate j 35 ++ x :: r, by simp [List.replicate_succ]⟩
  have hr1 : rest (next { g with ch := 35, hNum := 1 }) = d :: r1 := by
    rw [← hd]
    exact rest_next (c := 35) (by simpa [rest] using h)
  have hlen : k < g.source.length + 1 := by
    have h1 := rest_length g
    rw [h] at h1
    simp at h1
    omega
  have hl := headingLoop_run k (g.source.length + 1)
    { next { g with ch := 35, hNum := 1 } with ch := d } x r
    (by rw [hd]; simpa [rest] using hr1) (by simpa [rest] using congrArg List.head? hr1)
    hx (by simp [next]; omega) hlen
  unfold body
  rw [rest_setCh h]
  simp only [Res.ok_bind]
  simp only [blockChars.esc, blockChars.escapeBegin, blockChars.bold, blockChars.italics,
    blockChars.underline, blockChars.line, blockChars.newline, blockChars.heading,
    Nat.reduceEqDiff, if_false, if_true, caseHeading]
  rw [rest_setCh hr1]
  simp only [Res.ok_bind, next] at hl ⊢
  rw [hl]
  simp [pushState, itoa_digit (k + 1) (by omega), Nat.add_comm 1 k]

/-- A line feed with a heading on top of the stack: the body pops it, writes
the closing tag of the recorded level and clears the level. -/
theorem body_lf_close {g : Globals} {r : List Nat} (st out : List Nat)
    (h : rest g = 10 :: r) (hs : g.openStates = st ++ [heading]) :
    body g out = .ok (.loop { g with ch := 10, openStates := st, hNum := 0 }
      (out ++ (ascii "</h" ++ itoa g.hNum ++ ascii ">"))) := by
  unfold body
  rw [rest_setCh h]
  simp [caseLF, lastState, remLastState, hs]

/-- The main loop on `n` bytes `#` (one to six), a trigger-free text without
line feed and a line feed, from an empty stack. -/
theorem mainLoop_heading (n : Nat) (t : List Nat) (fuel : Nat) (g : Globals) (out : List Nat)
    (h1 : 1 ≤ n) (h6 : n ≤ 6) (ht : TriggerFree t) (hnl : 10 ∉ t)
    (hr : rest g = List.replicate n 35 ++ t ++ [10]) (hs : g.openStates = [])
    (hf : (List.replicate n 35 ++ t ++ [10]).length < fuel) :
    ∃ g1, mainLoop fuel g out
        = .ok (out ++ ascii "<h" ++ [48 + n] ++ ascii ">" ++ t ++ ascii "</h" ++ [48 + n]
            ++ ascii ">", g1) ∧ g1.openStates = [] := by
  obtain ⟨k, rfl⟩ : ∃ k, n = k + 1 := ⟨n - 1, by omega⟩
  obtain ⟨x, r, hx, hx35⟩ : ∃ x r, t ++ [10] = x :: r ∧ x ≠ 35 := by
    cases t with
    | nil => exact ⟨10, [], rfl, by decide⟩
    | cons a t =>
      refine ⟨a, t ++ [10], by simp, ?_⟩
      intro ha
      exact ht a (by simp) (by simp [isTrigger, ha])
  have hr0 : rest g = 35 :: (List.replicate k 35 ++ x :: r) := by
    rw [hr, ← hx]
    simp [List.replicate_succ]
  simp only [List.length_append, List.length_replicate, List.length_singleton] at hf
  obtain ⟨m, rfl⟩ : ∃ m, fuel = ((m + 1) + 1 + t.length) + 1 := ⟨fuel - t.length - 3, by omega⟩
  rw [mainLoop_step _ hr0 (body_heading out hr0 hx35 (by omega))]
  have hr2 : rest (next { g with hNum := k + 1, current := g.current + k,
                                 peeked := g.peeked + k, ch := x,
                                 openStates := g.openStates ++ [heading] }) = t ++ [10] := by
    rw [hx]
    exact rest_move (t := 35 :: List.replicate k 35) (by simpa using hr0) (by simp [next])
      (by simp [next]; omega)
  obtain ⟨ch1, h2⟩ := mainLoop_plain t [10] ((m + 1) + 1) _ (out ++ (ascii "<h" ++ [48 + (k + 1)]
    ++ ascii ">")) hr2 ht (fun h => absurd h hnl)
  rw [h2, mainLoop_step _ (rest_skip ch1 hr2) (body_lf_close [] _ (rest_skip ch1 hr2)
    (by simp [next, hs])), mainLoop_end]
  · refine ⟨_, congrArg Res.ok (Prod.ext ?_ rfl), ?_⟩
    · simp [next, itoa_digit (k + 1) (by omega)]
    · simp [next]
  · exact rest_next (c := 10) (by simpa [rest] using rest_skip ch1 hr2)

/-- The statement `ch = curr()` after `next()`, when the remaining input has
a second byte: `ch` becomes the byte under the new cursor. -/
theorem setCh_next_head {g : Globals} {c : Nat} {l : List Nat} (h : rest g = c :: l)
    (hl : l ≠ []) :
    ∃ g1, setCh (next g) = .ok g1 ∧ rest g1 = l ∧ (rest g1).head? = some g1.ch ∧
      g1 = { g with current := g.current + 1, peeked := g.peeked + 1, ch := g1.ch } := by
  obtain ⟨d, r1, rfl⟩ : ∃ d r1, l = d :: r1 := by
    cases l with
    | nil => exact absurd rfl hl
    | cons d r1 => exact ⟨d, r1, rfl⟩
  have h1 := rest_next h
  refine ⟨{ next g with ch := d }, rest_setCh h1, by simpa [rest] using h1,
    by simpa [rest] using congrArg List.head? h1, by simp [next]⟩

/-- The loop that collects a buffer up to the next `]`: it appends the bytes
before the bracket and stops on the bracket. -/
theorem altLoop_run (alt : List Nat) : ∀ (fuel : Nat) (g : Globals) (acc r : List Nat),
    rest g = alt ++ 93 :: r → (rest g).head? = some g.ch → 93 ∉ alt → alt.length < fuel →
    altLoop fuel g acc = .ok ({ g with current := g.current + alt.length,
                                       peeked := g.peeked + alt.length, ch := 93 }, acc ++ alt) := by
  induction alt with
  | nil =>
    intro fuel g acc r hr hch _ hf
    obtain ⟨m, rfl⟩ := fuel_split hf
    have hc : g.ch = 93 := by
      rw [hr] at hch
      simpa using hch.symm
    rw [List.length_nil, Nat.add_zero, altLoop, if_neg (by simp [hc]), ← hc]
    simp
  | cons a alt ih =>
    intro fuel g acc r hr hch hn hf
    obtain ⟨m, hm⟩ := fuel_split hf
    have hm2 : fuel = (m + alt.length + 1) + 1 := by simp at hm; omega
    subst hm2
    have hr0 : rest g = a :: (alt ++ 93 :: r) := by simpa using hr
    have hc : g.ch = a := by
      rw [hr0] at hch
      simpa using hch.symm
    have ha : a ≠ 93 := fun h => hn (by simp [h])
    obtain ⟨g1, hs1, hr1, hh1, hg1⟩ := setCh_next_head hr0 (by simp)
    rw [altLoop, if_pos ⟨by rw [hc]; exact ha, rest_lt hr0⟩, hs1]
    simp only [Res.ok_bind]
    rw [ih _ g1 _ r hr1 hh1 (fun h => hn (by simp [h])) (by omega), hg1]
    simp [hc, Nat.add_assoc, Nat.add_comm 1]

/-- The bracket loop of an image on an alt text without colon and without
`]`: it collects the alt text, leaves width and height empty and stops on the
bracket. -/
theorem imgAltLoop_run (alt : List Nat) : ∀ (fuel : Nat) (g : Globals) (acc r : List Nat),
    rest g = alt ++ 93 :: r → (rest g).head? = some g.ch → 93 ∉ alt → 58 ∉ alt →
    alt.length < fuel →
    imgAltLoop fuel g acc = .ok ({ g with current := g.current + alt.length,
                                          peeked := g.peeked + alt.length, ch := 93 },
                                  acc ++ alt, [], []) := by
  induction alt with
  | nil =>
    intro fuel g acc r hr hch _ _ hf
    obtain ⟨m, rfl⟩ := fuel_split hf
    have hc : g.ch = 93 := by
      rw [hr] at hch
      simpa using hch.symm
    rw [List.length_nil, Nat.add_zero, imgAltLoop, if_neg (by simp [hc]), ← hc]
    simp
  | cons a alt ih =>
    intro fuel g acc r hr hch hn hn2 hf
    obtain ⟨m, hm⟩ := fuel_split hf
    have hm2 : fuel = (m + alt.length + 1) + 1 := by simp at hm; omega
    subst hm2
    have hr0 : rest g = a :: (alt ++ 93 :: r) := by simpa using hr
    have hc : g.ch = a := by
      rw [hr0] at hch
      simpa using hch.symm
    have ha : a ≠ 93 := fun h => hn (by simp [h])
    have ha2 : ¬ g.ch = 58 := by
      rw [hc]
      exact fun h => hn2 (by simp [h])
    obtain ⟨g1, hs1, hr1, hh1, hg1⟩ := setCh_next_head hr0 (by simp)
    rw [imgAltLoop, if_pos ⟨by rw [hc]; exact ha, rest_lt hr0⟩, if_neg ha2]
    simp only [Res.pure_eq, Res.ok_bind, Bool.false_eq_true, if_false]
    rw [hs1]
    simp only [Res.ok_bind]
    rw [ih _ g1 _ r hr1 hh1 (fun h => hn (by simp [h])) (fun h => hn2 (by simp [h])) (by omega),
      hg1]
    simp [hc, Nat.add_assoc, Nat.add_comm 1]

/-- A link whose `]` is followed by a byte other than `(`: the body leaves
`compile` with the empty string. -/
theorem body_link_abort {g : Globals} {alt r : List Nat} {c : Nat} (out : List Nat)
    (h : rest g = 64 :: 91 :: (alt ++ 93 :: c :: r)) (hn : 93 ∉ alt) (hc : c ≠ 40) :
    ∃ g1, body g out = .ok (.ret g1 []) := by
  have h0 : rest { g with ch := 64 } = 64 :: 91 :: (alt ++ 93 :: c :: r) := by simpa [rest] using h
  obtain ⟨g1, hs1, hr1, hh1, hg1⟩ := setCh_next_head h0 (by simp)
  have hc1 : g1.ch = 91 := by
    rw [hr1] at hh1
    simpa using hh1.symm
  obtain ⟨g2, hs2, hr2, hh2, hg2⟩ := setCh_next_head hr1 (by simp)
  have hlen : alt.length < g2.source.length + 1 := by
    have := rest_length g2
    rw [hr2] at this
    simp at this
    omega
  have hl := altLoop_run alt _ g2 [] (c :: r) hr2 hh2 hn hlen
  have hr3 : rest { g2 with current := g2.current + alt.length,
                            peeked := g2.peeked + alt.length, ch := 93 } = 93 :: c :: r :=
    rest_skip 93 hr2
  have hs3 := setCh_next hr3
  unfold body
  rw [rest_setCh h]
  simp only [Res.ok_bind]
  simp only [blockChars.esc, blockChars.escapeBegin, blockChars.bold, blockChars.italics,
    blockChars.underline, blockChars.line, blockChars.newline, blockChars.heading,
    blockChars.link, Nat.reduceEqDiff, if_false, if_true, caseLink]
  rw [hs1]
  simp only [Res.ok_bind, hc1, if_true]
  rw [hs2]
  simp only [Res.ok_bind]
  rw [hl]
  simp only [Res.ok_bind]
  rw [hs3]
  simp [hc]

/-- An image whose alt text has no colon and whose `]` is followed by a byte
other than `(`: the body leaves `compile` with the empty string. -/
theorem body_image_abort {g : Globals} {alt r : List Nat} {c : Nat} (out : List Nat)
    (h : rest g = 33 :: 91 :: (alt ++ 93 :: c :: r)) (hn : 93 ∉ alt) (hn2 : 58 ∉ alt)
    (hc : c ≠ 40) :
    ∃ g1, body g out = .ok (.ret g1 []) := by
  have h0 : rest { g with ch := 33 } = 33 :: 91 :: (alt ++ 93 :: c :: r) := by simpa [rest] using h
  obtain ⟨g1, hs1, hr1, hh1, hg1⟩ := setCh_next_head h0 (by simp)
  have hc1 : g1.ch = 91 := by
    rw [hr1] at hh1
    simpa using hh1.symm
  obtain ⟨g2, hs2, hr2, hh2, hg2⟩ := setCh_next_head hr1 (by simp)
  have hlen : alt.length < g2.source.length + 1 := by
    have := rest_length g2
    rw [hr2] at this
    simp at this
    omega
  have hl := imgAltLoop_run alt _ g2 [] (c :: r) hr2 hh2 hn hn2 hlen
  have hr3 : rest { g2 with current := g2.current + alt.length,
                            peeked := g2.peeked + alt.length, ch := 93 } = 93 :: c :: r :=
    rest_skip 93 hr2
  have hs3 := setCh_next hr3
  unfold body
  rw [rest_setCh h]
  simp only [Res.ok_bind]
  simp only [blockChars.esc, blockChars.escapeBegin, blockChars.bold, blockChars.italics,
    blockChars.underline, blockChars.line, blockChars.newline, blockChars.heading,
    blockChars.link, blockChars.image, Nat.reduceEqDiff, if_false, if_true, caseImage]
  rw [hs1]
  simp only [Res.ok_bind, hc1, if_true]
  rw [hs2]
  simp only [Res.ok_bind]
  rw [hl]
  simp only [Res.ok_bind]
  rw [hs3]
  simp [hc]

/-- The main loop on a trigger-free text followed by a construct on which the
body leaves `compile` with the empty string: the result is the empty string,
whatever was written before. -/
theorem mainLoop_abort (p m : List Nat) (fuel : Nat) (g : Globals) (out : List Nat)
    (hp : TriggerFree p) (hr : rest g = p ++ m) (hm : m ≠ [])
    (hs : lastState g ≠ some heading) (hn : g.preserveNewLines = false)
    (hb : ∀ (g1 : Globals) (out1 : List Nat), rest g1 = m → ∃ g2, body g1 out1 = .ok (.ret g2 []))
    (hf : p.length < fuel) :
    output (mainLoop fuel g out) = .ok [] := by
  obtain ⟨k, rfl⟩ := fuel_split hf
  obtain ⟨ch1, h1⟩ := mainLoop_plain p m (k + 1) g out hr hp (fun _ => ⟨hs, hn⟩)
  have hr1 := rest_skip ch1 hr
  obtain ⟨g2, h2⟩ := hb _ (out ++ p) hr1
  obtain ⟨c, r, rfl⟩ : ∃ c r, m = c :: r := by
    cases m with
    | nil => exact absurd rfl hm
    | cons c r => exact ⟨c, r, rfl⟩
  rw [h1, mainLoop, if_pos (rest_lt hr1), h2]
  rfl

theorem Moved.trans {g g1 g2 : Globals} {j k : Nat} (h1 : Moved g g1 j) (h2 : Moved g1 g2 k) :
    Moved g g2 (j + k) := by
  obtain ⟨a1, a2, a3, a4, a5, a6⟩ := h1
  obtain ⟨b1, b2, b3, b4, b5, b6⟩ := h2
  exact ⟨b1.trans a1, by omega, by omega, b4.trans a4, b5.trans a5, b6.trans a6⟩

/-- Reading the byte under the cursor at the end of the source panics. -/
theorem setCh_end {g : Globals} (h : rest g = []) : setCh g = .panic := by
  have hl := rest_nil_le h
  have hn : g.source[g.current]? = none := by simp [hl]
  simp [setCh, curr, hn]

/-- The statements `next(); ch = curr()` on a remaining input with a second
byte. -/
theorem setCh_next_moved {g : Globals} {c : Nat} {l : List Nat} (h : rest g = c :: l)
    (hl : l ≠ []) :
    ∃ g1, setCh (next g) = .ok g1 ∧ rest g1 = l ∧ (rest g1).head? = some g1.ch ∧
      Moved g g1 1 := by
  obtain ⟨g1, h1, h2, h3, h4⟩ := setCh_next_head h hl
  refine ⟨g1, h1, h2, h3, ?_⟩
  rw [h4]
  simp [Moved]

/-- The URL loop on a URL without parentheses: it collects the bytes before
the closing parenthesis and stops on it. -/
theorem urlLoop_run (u : List Nat) : ∀ (fuel : Nat) (g : Globals) (acc r : List Nat),
    rest g = u ++ 41 :: r → (rest g).head? = some g.ch → 40 ∉ u → 41 ∉ u → u.length < fuel →
    urlLoop fuel g acc 0 = .ok ({ g with current := g.current + u.length,
                                         peeked := g.peeked + u.length, ch := 41 }, acc ++ u) := by
  induction u with
  | nil =>
    intro fuel g acc r hr hch _ _ hf
    obtain ⟨m, rfl⟩ := fuel_split hf
    have hc : g.ch = 41 := by
      rw [hr] at hch
      simpa using hch.symm
    rw [List.length_nil, Nat.add_zero, urlLoop, if_neg (by simp [hc]), ← hc]
    simp
  | cons a u ih =>
    intro fuel g acc r hr hch hn hn2 hf
    obtain ⟨m, hm⟩ := fuel_split hf
    have hm2 : fuel = (m + u.length + 1) + 1 := by simp at hm; omega
    subst hm2
    have hr0 : rest g = a :: (u ++ 41 :: r) := by simpa using hr
    have hc : g.ch = a := by
      rw [hr0] at hch
      simpa using hch.symm
    have ha : a ≠ 41 := fun h => hn2 (by simp [h])
    have ha2 : ¬ g.ch = 40 := by
      rw [hc]
      exact fun h => hn (by simp [h])
    obtain ⟨g1, hs1, hr1, hh1, hg1⟩ := setCh_next_head hr0 (by simp)
    rw [urlLoop, if_pos ⟨by rw [hc]; exact ha, rest_lt hr0⟩, if_neg ha2, hs1]
    simp only [Res.ok_bind]
    rw [urlInner, if_neg (by simp)]
    simp only [Res.pure_eq, Res.ok_bind]
    rw [ih _ g1 _ r hr1 hh1 (fun h => hn (by simp [h])) (fun h => hn2 (by simp [h])) (by omega),
      hg1]
    simp [hc, Nat.add_assoc, Nat.add_comm 1]

/-- The link case on `@[alt](url)` followed by `tl`, for an alt text without
`]` and a URL without parentheses: the scan reaches the closing parenthesis,
and what is left is the statement `next(); ch = curr()` and the writing of the
anchor. -/
theorem body_link_scan {g : Globals} {alt u tl : List Nat} (out : List Nat)
    (h : rest g = 64 :: 91 :: (alt ++ 93 :: 40 :: (u ++ 41 :: tl))) (hn : 93 ∉ alt)
    (hu : 40 ∉ u) (hu2 : 41 ∉ u) :
    ∃ g6, rest g6 = 41 :: tl ∧ Moved g g6 (alt.length + u.length + 4) ∧
      body g out = (setCh (next g6) >>= fun g7 => Res.ok (Flow.loop g7
        (out ++ ascii "\n<a href=\"" ++ u ++ ascii "\">" ++ (if alt = [] then u else alt)
          ++ ascii "</a>\n"))) := by
  have h0 : rest { g with ch := 64 } = 64 :: 91 :: (alt ++ 93 :: 40 :: (u ++ 41 :: tl)) := by
    simpa [rest] using h
  have hm0 : Moved g { g with ch := 64 } 0 := by simp [Moved]
  obtain ⟨g1, hs1, hr1, hh1, hm1⟩ := setCh_next_moved h0 (by simp)
  have hc1 : g1.ch = 91 := by
    rw [hr1] at hh1
    simpa using hh1.symm
  obtain ⟨g2, hs2, hr2, hh2, hm2⟩ := setCh_next_moved hr1 (by simp)
  have hlen : alt.length < g2.source.length + 1 := by
    have := rest_length g2
    rw [hr2] at this
    simp at this
    omega
  have hl := altLoop_run alt _ g2 [] _ hr2 hh2 hn hlen
  have hr3 := rest_skip 93 hr2
  have hm3 : Moved g2 { g2 with current := g2.current + alt.length,
                                peeked := g2.peeked + alt.length, ch := 93 } alt.length := by
    simp [Moved]
  obtain ⟨g4, hs4, hr4, hh4, hm4⟩ := setCh_next_moved hr3 (by simp)
  have hc4 : g4.ch = 40 := by
    rw [hr4] at hh4
    simpa using hh4.symm
  obtain ⟨g5, hs5, hr5, hh5, hm5⟩ := setCh_next_moved hr4 (by simp)
  have hlen5 : u.length < g5.source.length + 1 := by
    have := rest_length g5
    rw [hr5] at this
    simp at this
    omega
  have hl5 := urlLoop_run u _ g5 [] _ hr5 hh5 hu hu2 hlen5
  have hr6 := rest_skip 41 hr5
  have hm6 : Moved g5 { g5 with current := g5.current + u.length,
                                peeked := g5.peeked + u.length, ch := 41 } u.length := by
    simp [Moved]
  refine ⟨_, hr6, ?_, ?_⟩
  · have := ((((((hm0.trans hm1).trans hm2).trans hm3).trans hm4).trans hm5).trans hm6)
    have he : 0 + 1 + 1 + alt.length + 1 + 1 + u.length = alt.length + u.length + 4 := by omega
    rw [he] at this
    exact this
  · unfold body
    rw [rest_setCh h]
    simp only [Res.ok_bind]
    simp only [blockChars.esc, blockChars.escapeBegin, blockChars.bold, blockChars.italics,
      blockChars.underline, blockChars.line, blockChars.newline, blockChars.heading,
      blockChars.link, Nat.reduceEqDiff, if_false, if_true, caseLink]
    rw [hs1]
    simp only [Res.ok_bind, hc1, if_true]
    rw [hs2]
    simp only [Res.ok_bind]
    rw [hl]
    simp only [Res.ok_bind]
    rw [hs4]
    simp only [Res.ok_bind, hc4, ne_eq, not_true_eq_false, if_false]
    rw [hs5]
    simp only [Res.ok_bind]
    rw [hl5]
    simp only [Res.ok_bind, List.nil_append]
    congr 1
    funext g7
    by_cases ha : alt = [] <;> simp [ha]

theorem Moved.peeked_eq {g g1 : Globals} {k : Nat} (h : Moved g g1 k)
    (hp : g.peeked = g.current + 1) : g1.peeked = g1.current + 1 := by
  obtain ⟨_, a2, a3, _⟩ := h
  omega

/-- The statements `next(); next(); ch = curr()` on a remaining input with a
third byte. -/
theorem setCh_next2_moved {g : Globals} {c d : Nat} {l : List Nat} (h : rest g = c :: d :: l)
    (hl : l ≠ []) :
    ∃ g1, setCh (next (next g)) = .ok g1 ∧ rest g1 = l ∧ (rest g1).head? = some g1.ch ∧
      Moved g g1 2 := by
  obtain ⟨g1, h1, h2, h3, h4⟩ := setCh_next_moved (rest_next h) hl
  have hm : Moved g (next g) 1 := by simp [Moved, next]
  exact ⟨g1, h1, h2, h3, hm.trans h4⟩

/-- The width loop on a width without colon followed by two colons: it
collects the width and stops on the first colon. -/
theorem widthLoop_run (w : List Nat) : ∀ (fuel : Nat) (g : Globals) (acc r : List Nat),
    rest g = w ++ 58 :: 58 :: r → (rest g).head? = some g.ch → g.peeked = g.current + 1 →
    58 ∉ w → w.length < fuel →
    widthLoop fuel g acc = .ok ({ g with current := g.current + w.length,
                                         peeked := g.peeked + w.length, ch := 58 }, acc ++ w) := by
  induction w with
  | nil =>
    intro fuel g acc r hr hch hp _ hf
    obtain ⟨m, rfl⟩ := fuel_split hf
    have hr0 : rest g = 58 :: 58 :: r := by simpa using hr
    have hc : g.ch = 58 := by
      rw [hr] at hch
      simpa using hch.symm
    have hpk : peek g = .ok 58 := by simp [peek, hp, rest_getElem1 hr0]
    rw [List.length_nil, Nat.add_zero, widthLoop, if_neg (by simp [hc]), hpk]
    simp only [Res.ok_bind, ne_eq, not_true_eq_false, if_false]
    rw [← hc]
    simp
  | cons a w ih =>
    intro fuel g acc r hr hch hp hn hf
    obtain ⟨m, hm⟩ := fuel_split hf
    have hm2 : fuel = (m + w.length + 1) + 1 := by simp at hm; omega
    subst hm2
    have hr0 : rest g = a :: (w ++ 58 :: 58 :: r) := by simpa using hr
    have hc : g.ch = a := by
      rw [hr0] at hch
      simpa using hch.symm
    have ha : g.ch ≠ 58 := by
      rw [hc]
      exact fun h => hn (by simp [h])
    obtain ⟨g1, hs1, hr1, hh1, hg1⟩ := setCh_next_head hr0 (by simp)
    have hp1 : g1.peeked = g1.current + 1 := by rw [hg1]; simp [hp]
    rw [widthLoop, if_pos ha, hs1]
    simp only [Res.ok_bind]
    rw [ih _ g1 _ r hr1 hh1 hp1 (fun h => hn (by simp [h])) (by omega), hg1]
    simp [hc, Nat.add_assoc, Nat.add_comm 1]

/-- The bracket loop of an image on `alt::w::h]`, for an alt text without
colon and `]`, a width without colon and a height without `]`: it returns the
three parts and stops on the bracket. -/
theorem imgAltLoop_dims (alt : List Nat) : ∀ (fuel : Nat) (g : Globals) (acc w h r : List Nat),
    rest g = alt ++ 58 :: 58 :: (w ++ 58 :: 58 :: (h ++ 93 :: r)) →
    (rest g).head? = some g.ch → g.peeked = g.current + 1 →
    93 ∉ alt → 58 ∉ alt → 58 ∉ w → 93 ∉ h → alt.length < fuel →
    ∃ g1, imgAltLoop fuel g acc = .ok (g1, acc ++ alt, w, h) ∧ rest g1 = 93 :: r ∧
      g1.ch = 93 ∧ Moved g g1 (alt.length + w.length + h.length + 4) := by
  induction alt with
  | nil =>
    intro fuel g acc w h r hr hch hp _ _ hw hh hf
    obtain ⟨m, rfl⟩ := fuel_split hf
    have hr0 : rest g = 58 :: 58 :: (w ++ 58 :: 58 :: (h ++ 93 :: r)) := by simpa using hr
    have hc : g.ch = 58 := by
      rw [hr0] at hch
      simpa using hch.symm
    have hpk : peek g = .ok 58 := by simp [peek, hp, rest_getElem1 hr0]
    obtain ⟨g1, hs1, hr1, hh1, hm1⟩ := setCh_next2_moved hr0 (by simp)
    have hlen1 : w.length < g1.source.length + 1 := by
      have := rest_length g1
      rw [hr1] at this
      simp at this
      omega
    have hl1 := widthLoop_run w _ g1 [] _ hr1 hh1 (hm1.peeked_eq hp) hw hlen1
    have hr2 := rest_skip 58 hr1
    have hm2 : Moved g1 { g1 with current := g1.current + w.length,
                                  peeked := g1.peeked + w.length, ch := 58 } w.length := by
      simp [Moved]
    obtain ⟨g3, hs3, hr3, hh3, hm3⟩ := setCh_next2_moved hr2 (by simp)
    have hlen3 : h.length < g3.source.length + 1 := by
      have := rest_length g3
      rw [hr3] at this
      simp at this
      omega
    have hl3 := altLoop_run h _ g3 [] _ hr3 hh3 hh hlen3
    have hr4 := rest_skip 93 hr3
    have hm4 : Moved g3 { g3 with current := g3.current + h.length,
                                  peeked := g3.peeked + h.length, ch := 93 } h.length := by
      simp [Moved]
    refine ⟨_, ?_, hr4, rfl, ?_⟩
    · rw [List.length_nil, Nat.add_zero, imgAltLoop,
        if_pos ⟨by simp [hc], rest_lt hr0⟩, if_pos hc, hpk]
      simp only [Res.ok_bind, Res.pure_eq, decide_True, if_true]
      rw [hs1]
      simp only [Res.ok_bind]
      rw [hl1]
      simp only [Res.ok_bind]
      rw [hs3]
      simp only [Res.ok_bind]
      rw [hl3]
      simp
    · have := ((hm1.trans hm2).trans hm3).trans hm4
      have he : 2 + w.length + 2 + h.length = ([] : List Nat).length + w.length + h.length + 4 := by
        simp; omega
      rw [he] at this
      exact this
  | cons a alt ih =>
    intro fuel g acc w h r hr hch hp hn hn2 hw hh hf
    obtain ⟨m, hm⟩ := fuel_split hf
    have hm2 : fuel = (m + alt.length + 1) + 1 := by simp at hm; omega
    subst hm2
    have hr0 : rest g = a :: (alt ++ 58 :: 58 :: (w ++ 58 :: 58 :: (h ++ 93 :: r))) := by
      simpa using hr
    have hc : g.ch = a := by
      rw [hr0] at hch
      simpa using hch.symm
    have ha : a ≠ 93 := fun h => hn (by simp [h])
    have ha2 : ¬ g.ch = 58 := by
      rw [hc]
      exact fun h => hn2 (by simp [h])
    obtain ⟨g1, hs1, hr1, hh1, hm1⟩ := setCh_next_moved hr0 (by simp)
    obtain ⟨g2, hl2, hr2, hc2, hm2⟩ := ih (m + alt.length + 1) g1 (acc ++ [g.ch]) w h r hr1 hh1
      (hm1.peeked_eq hp) (fun h => hn (by simp [h])) (fun h => hn2 (by simp [h])) hw hh
      (by omega)
    refine ⟨g2, ?_, hr2, hc2, ?_⟩
    · rw [imgAltLoop, if_pos ⟨by rw [hc]; exact ha, rest_lt hr0⟩, if_neg ha2]
      simp only [Res.pure_eq, Res.ok_bind, Bool.false_eq_true, if_false]
      rw [hs1]
      simp only [Res.ok_bind]
      rw [hl2]
      simp [hc]
    · have := hm1.trans hm2
      have he : 1 + (alt.length + w.length + h.length + 4)
          = (a :: alt).length + w.length + h.length + 4 := by simp; omega
      rw [he] at this
      exact this

/-- The image case on `![alt::w::h](url)` followed by `tl`, for an alt text
without colon and `]`, a width without colon, a height without `]` and a URL
without parentheses: the scan reaches the closing parenthesis, and what is
left is the statement `next(); ch = curr()` and the writing of the tag. -/
theorem body_image_scan {g : Globals} {alt w h u tl : List Nat} (out : List Nat)
    (hr : rest g = 33 :: 91 :: (alt ++ 58 :: 58 :: (w ++ 58 :: 58 ::
      (h ++ 93 :: 40 :: (u ++ 41 :: tl)))))
    (hp : g.peeked = g.current + 1)
    (hn : 93 ∉ alt) (hn2 : 58 ∉ alt) (hw : 58 ∉ w) (hh : 93 ∉ h)
    (hu : 40 ∉ u) (hu2 : 41 ∉ u) :
    ∃ g6, rest g6 = 41 :: tl ∧ Moved g g6 (alt.length + w.length + h.length + u.length + 8) ∧
      body g out = (setCh (next g6) >>= fun g7 => Res.ok (Flow.loop g7
        (out ++ ascii "\n<img src=\"" ++ u ++ ascii "\" alt=\"" ++ (if alt = [] then u else alt)
          ++ ascii "\"" ++ (if w ≠ [] then ascii " width=\"" ++ w ++ [34] else [])
          ++ (if h ≠ [] then ascii " height=\"" ++ h ++ [34] else []) ++ ascii ">\n"))) := by
  have h0 : rest { g with ch := 33 } = 33 :: 91 :: (alt ++ 58 :: 58 :: (w ++ 58 :: 58 ::
      (h ++ 93 :: 40 :: (u ++ 41 :: tl)))) := by
    simpa [rest] using hr
  have hm0 : Moved g { g with ch := 33 } 0 := by simp [Moved]
  obtain ⟨g1, hs1, hr1, hh1, hm1⟩ := setCh_next_moved h0 (by simp)
  have hc1 : g1.ch = 91 := by
    rw [hr1] at hh1
    simpa using hh1.symm
  obtain ⟨g2, hs2, hr2, hh2, hm2⟩ := setCh_next_moved hr1 (by simp)
  have hlen : alt.length < g2.source.length + 1 := by
    have := rest_length g2
    rw [hr2] at this
    simp at this
    omega
  obtain ⟨g3, hl3, hr3, hc3, hm3⟩ := imgAltLoop_dims alt _ g2 [] w h _ hr2 hh2
    (((hm0.trans hm1).trans hm2).peeked_eq hp) hn hn2 hw hh hlen
  obtain ⟨g4, hs4, hr4, hh4, hm4⟩ := setCh_next_moved hr3 (by simp)
  have hc4 : g4.ch = 40 := by
    rw [hr4] at hh4
    simpa using hh4.symm
  obtain ⟨g5, hs5, hr5, hh5, hm5⟩ := setCh_next_moved hr4 (by simp)
  have hlen5 : u.length < g5.source.length + 1 := by
    have := rest_length g5
    rw [hr5] at this
    simp at this
    omega
  have hl5 := urlLoop_run u _ g5 [] _ hr5 hh5 hu hu2 hlen5
  have hr6 := rest_skip 41 hr5
  have hm6 : Moved g5 { g5 with current := g5.current + u.length,
                                peeked := g5.peeked + u.length, ch := 41 } u.length := by
    simp [Moved]
  refine ⟨_, hr6, ?_, ?_⟩
  · have := ((((((hm0.trans hm1).trans hm2).trans hm3).trans hm4).trans hm5).trans hm6)
    have he : 0 + 1 + 1 + (alt.length + w.length + h.length + 4) + 1 + 1 + u.length
        = alt.length + w.length + h.length + u.length + 8 := by omega
    rw [he] at this
    exact this
  · unfold body
    rw [rest_setCh hr]
    simp only [Res.ok_bind]
    simp only [blockChars.esc, blockChars.escapeBegin, blockChars.bold, blockChars.italics,
      blockChars.underline, blockChars.line, blockChars.newline, blockChars.heading,
      blockChars.link, blockChars.image, Nat.reduceEqDiff, if_false, if_true, caseImage]
    rw [hs1]
    simp only [Res.ok_bind, hc1, if_true]
    rw [hs2]
    simp only [Res.ok_bind]
    rw [hl3]
    simp only [Res.ok_bind]
    rw [hs4]
    simp only [Res.ok_bind, hc4, ne_eq, not_true_eq_false, if_false]
    rw [hs5]
    simp only [Res.ok_bind]
    rw [hl5]
    simp only [Res.ok_bind, List.nil_append]
    congr 1
    funext g7
    by_cases ha : alt = [] <;> by_cases hw0 : w = [] <;> by_cases hh0 : h = [] <;>
      simp [ha, hw0, hh0]

/-- Variables that differ by a move of the cursor over a stretch of the
remaining input. -/
theorem Moved.rest_eq {g g1 : Globals} {k : Nat} {t r : List Nat} (h : Moved g g1 k)
    (hr : rest g = t ++ r) (hk : t.length = k) : rest g1 = r :=
  rest_move hr h.1 (by rw [h.2.1, hk])

theorem Moved.refl_ch (g : Globals) (c : Nat) : Moved g { g with ch := c } 0 := by
  simp [Moved]

theorem Moved.next_right {g g1 : Globals} {k : Nat} (h : Moved g g1 k) :
    Moved g (next g1) (k + 1) := by
  have : Moved g1 (next g1) 1 := by simp [Moved, next]
  exact h.trans this

theorem Moved.lastState_same {g g1 : Globals} {k : Nat} (h : Moved g g1 k) :
    lastState g1 = lastState g := by
  simp [lastState, h.2.2.2.1]

/-- A construct `m` between two trigger-free texts, when the body of the loop
takes `m` in one round, writes `x` for it and leaves the cursor on its last
byte: the main loop returns the first text, `x` and the second text, and the
stack is as before. -/
theorem mainLoop_construct (p m q x : List Nat) (fuel : Nat) (g : Globals) (out : List Nat)
    (hp : TriggerFree p) (hq : TriggerFree q) (hr : rest g = p ++ (m ++ q)) (hm : m ≠ [])
    (hs : lastState g ≠ some heading) (hn : g.preserveNewLines = false)
    (hpk : g.peeked = g.current + 1)
    (hb : ∀ (g1 : Globals) (out1 : List Nat), rest g1 = m ++ q → g1.peeked = g1.current + 1 →
      ∃ g2, body g1 out1 = .ok (.loop g2 (out1 ++ x)) ∧ Moved g1 g2 (m.length - 1))
    (hf : (p ++ (m ++ q)).length < fuel) :
    ∃ g3, mainLoop fuel g out = .ok (out ++ p ++ x ++ q, g3) ∧
      g3.openStates = g.openStates := by
  have hf2 : p.length < fuel := by simp at hf; omega
  obtain ⟨k, rfl⟩ := fuel_split hf2
  obtain ⟨ch1, h1⟩ := mainLoop_plain p (m ++ q) (k + 1) g out hr hp (fun _ => ⟨hs, hn⟩)
  have hm1 : Moved g { g with current := g.current + p.length,
                              peeked := g.peeked + p.length, ch := ch1 } p.length := by
    simp [Moved]
  have hr1 := rest_skip ch1 hr
  obtain ⟨g2, h2, hm2⟩ := hb _ (out ++ p) hr1 (by simp [hpk]; omega)
  obtain ⟨c, r, hcr⟩ : ∃ c r, m ++ q = c :: r := by
    cases m with
    | nil => exact absurd rfl hm
    | cons c r => exact ⟨c, r ++ q, rfl⟩
  have hmlen : 0 < m.length := List.length_pos.2 hm
  have hm3 : Moved g (next g2) (p.length + (m.length - 1) + 1) := (hm1.trans hm2).next_right
  have hr3 : rest (next g2) = q :=
    hm3.rest_eq (t := p ++ m) (by simpa using hr) (by simp; omega)
  rw [h1, mainLoop_step k (hcr ▸ hr1) h2]
  obtain ⟨g3, h3, hs3⟩ := mainLoop_plain_end q k (next g2) (out ++ p ++ x) hr3 hq
    (fun _ => ⟨by rw [hm3.lastState_same]; exact hs, by rw [hm3.2.2.2.2.2]; exact hn⟩)
    (by simp at hf; omega)
  exact ⟨g3, h3, by rw [hs3, hm3.2.2.2.1]⟩

/-- The case of the backslash: the body writes the byte that follows and
leaves the cursor on it. -/
theorem body_esc {g : Globals} {c : Nat} {r : List Nat} (out : List Nat)
    (h : rest g = 92 :: c :: r) :
    ∃ g2, body g out = .ok (.loop g2 (out ++ [c])) ∧ Moved g g2 1 := by
  have h0 : rest { g with ch := 92 } = 92 :: c :: r := by simpa [rest] using h
  have hs := setCh_next h0
  refine ⟨{ g with current := g.current + 1, peeked := g.peeked + 1, ch := c }, ?_, ?_⟩
  · unfold body
    rw [rest_setCh h]
    simp only [Res.ok_bind, blockChars.esc, if_true, caseEsc]
    rw [hs]
    rfl
  · simp [Moved]

/-- The case of `@` or `!` followed by a byte other than `[`: the body writes
nothing and leaves the cursor on that byte. -/
theorem body_gate {g : Globals} {a c : Nat} {r : List Nat} (out : List Nat)
    (ha : a = 64 ∨ a = 33) (h : rest g = a :: c :: r) (hc : c ≠ 91) :
    ∃ g2, body g out = .ok (.loop g2 (out ++ [])) ∧ Moved g g2 1 := by
  have h0 : rest { g with ch := a } = a :: c :: r := by simpa [rest] using h
  have hs := setCh_next h0
  refine ⟨{ g with current := g.current + 1, peeked := g.peeked + 1, ch := c }, ?_, ?_⟩
  · unfold body
    rw [rest_setCh h]
    rcases ha with rfl | rfl
    · simp only [Res.ok_bind, blockChars.esc, blockChars.escapeBegin, blockChars.bold,
        blockChars.italics, blockChars.underline, blockChars.line, blockChars.newline,
        blockChars.heading, blockChars.link, Nat.reduceEqDiff, if_false, if_true, caseLink]
      rw [hs]
      simp [hc]
    · simp only [Res.ok_bind, blockChars.esc, blockChars.escapeBegin, blockChars.bold,
        blockChars.italics, blockChars.underline, blockChars.line, blockChars.newline,
        blockChars.heading, blockChars.link, blockChars.image, Nat.reduceEqDiff, if_false,
        if_true, caseImage]
      rw [hs]
      simp [hc]
  · simp [Moved]

theorem encode_cons (a : Piece) (ps : List Piece) : encode (a :: ps) = a.bytes ++ encode ps := by
  simp [encode]

theorem unescape_cons (a : Piece) (ps : List Piece) :
    unescape (a :: ps) = a.value :: unescape ps := rfl

theorem Moved.refl (g : Globals) : Moved g g 0 := by simp [Moved]

theorem Moved.cast {g g1 : Globals} {j k : Nat} (h : Moved g g1 j) (e : j = k) :
    Moved g g1 k := e ▸ h

/-- The first byte of a body followed by its closing byte `d`: it is `d` only
when the body is empty. -/
theorem encode_head (d : Nat) (hd : d ≠ 92) (ps : List Piece) (r : List Nat)
    (hv : ∀ a ∈ ps, a.Avoids d) :
    ∃ x l, encode ps ++ d :: r = x :: l ∧ (x = d → ps = []) := by
  cases ps with
  | nil => exact ⟨d, r, rfl, fun _ => rfl⟩
  | cons a ps =>
    have ha := hv a (by simp)
    cases a with
    | byte b =>
      exact ⟨b, encode ps ++ d :: r, by simp [encode_cons, Piece.bytes],
        fun hb => absurd hb ha.1⟩
    | pair y =>
      exact ⟨92, y :: (encode ps ++ d :: r), by simp [encode_cons, Piece.bytes],
        fun hb => absurd hb.symm hd⟩

/-- The loop of the raw region on a body of plain bytes and escape pairs
followed by `}`: it writes the unescaped body and stops on the brace. -/
theorem rawLoop_run (ps : List Piece) : ∀ (fuel : Nat) (g : Globals) (acc r : List Nat),
    rest g = encode ps ++ 125 :: r → (rest g).head? = some g.ch →
    (∀ a ∈ ps, a.Avoids 125) → ps.length < fuel →
    ∃ g1, rawLoop fuel g acc = .ok (g1, acc ++ unescape ps) ∧
      Moved g g1 (encode ps).length := by
  induction ps with
  | nil =>
    intro fuel g acc r hr hch _ hf
    obtain ⟨m, rfl⟩ := fuel_split hf
    have hc : g.ch = 125 := by
      rw [hr] at hch
      simpa [encode] using hch.symm
    refine ⟨g, ?_, Moved.refl g⟩
    rw [List.length_nil, Nat.add_zero, rawLoop, if_neg (by simp [hc])]
    simp [unescape]
  | cons a ps ih =>
    intro fuel g acc r hr hch hv hf
    obtain ⟨f, rfl⟩ : ∃ f, fuel = f + 1 := ⟨fuel - 1, by simp at hf; omega⟩
    have hfl : ps.length < f := by simp at hf; omega
    have hvs : ∀ b ∈ ps, b.Avoids 125 := fun b hb => hv b (by simp [hb])
    have cont : ∀ (g1 : Globals) (acc1 : List Nat), rest g1 = encode ps ++ 125 :: r →
        (rest g1).head? = some g1.ch →
        ∃ g2, (if g1.ch = blockChars.escapeEnd then (pure (g1, acc1) : Res (Globals × List Nat))
            else rawLoop f g1 acc1) = .ok (g2, acc1 ++ unescape ps) ∧
          Moved g1 g2 (encode ps).length := by
      intro g1 acc1 hr1 hh1
      by_cases hc1 : g1.ch = 125
      · obtain ⟨x, l, hx, hnil⟩ := encode_head 125 (by decide) ps r hvs
        have hx1 : g1.ch = x := by
          rw [hr1, hx] at hh1
          simpa using hh1.symm
        have hps : ps = [] := hnil (hx1 ▸ hc1)
        subst hps
        exact ⟨g1, by simp [hc1, unescape], Moved.refl g1⟩
      · rw [if_neg hc1]
        exact ih f g1 acc1 r hr1 hh1 hvs hfl
    have hne : encode ps ++ 125 :: r ≠ [] := by simp
    cases a with
    | byte b =>
      have hb := hv (.byte b) (by simp)
      have hr0 : rest g = b :: (encode ps ++ 125 :: r) := by
        simpa [encode_cons, Piece.bytes] using hr
      have hc : g.ch = b := by
        rw [hr0] at hch
        simpa using hch.symm
      obtain ⟨g1, hs1, hr1, hh1, hm1⟩ := setCh_next_moved hr0 hne
      obtain ⟨g2, h2, hm2⟩ := cont g1 (acc ++ [b]) hr1 hh1
      refine ⟨g2, ?_, ?_⟩
      · rw [rawLoop, if_pos ⟨by rw [hc]; exact hb.1, rest_lt hr0⟩,
          if_neg (by rw [hc]; exact hb.2)]
        simp only [Res.pure_eq, Res.ok_bind]
        rw [hs1]
        simp only [Res.ok_bind]
        rw [hc]
        simp only [Res.pure_eq] at h2 ⊢
        rw [h2]
        simp [unescape_cons, Piece.value]
      · exact (hm1.trans hm2).cast (by simp [encode_cons, Piece.bytes]; omega)
    | pair y =>
      have hr0 : rest g = 92 :: y :: (encode ps ++ 125 :: r) := by
        simpa [encode_cons, Piece.bytes] using hr
      have hc : g.ch = 92 := by
        rw [hr0] at hch
        simpa using hch.symm
      obtain ⟨g0, hs0, hr0', hh0, hm0⟩ := setCh_next_moved hr0 (by simp)
      have hc0 : g0.ch = y := by
        rw [hr0'] at hh0
        simpa using hh0.symm
      obtain ⟨g1, hs1, hr1, hh1, hm1⟩ := setCh_next_moved hr0' hne
      obtain ⟨g2, h2, hm2⟩ := cont g1 (acc ++ [y]) hr1 hh1
      refine ⟨g2, ?_, ?_⟩
      · rw [rawLoop, if_pos ⟨by rw [hc]; decide, rest_lt hr0⟩, if_pos hc, hs0]
        simp only [Res.ok_bind]
        rw [hs1]
        simp only [Res.ok_bind]
        rw [hc0]
        simp only [Res.pure_eq] at h2 ⊢
        rw [h2]
        simp [unescape_cons, Piece.value]
      · exact ((hm0.trans hm1).trans hm2).cast (by simp [encode_cons, Piece.bytes]; omega)

/-- The raw region `{ body }`: the body of the loop writes the unescaped body
and leaves the cursor on the closing brace. -/
theorem body_raw {g : Globals} {ps : List Piece} {r : List Nat} (out : List Nat)
    (h : rest g = 123 :: (encode ps ++ 125 :: r)) (hv : ∀ a ∈ ps, a.Avoids 125) :
    ∃ g2, body g out = .ok (.loop g2 (out ++ unescape ps)) ∧
      Moved g g2 ((encode ps).length + 1) := by
  have h0 : rest { g with ch := 123 } = 123 :: (encode ps ++ 125 :: r) := by
    simpa [rest] using h
  obtain ⟨g1, hs1, hr1, hh1, hm1⟩ := setCh_next_moved h0 (by simp)
  have hlen : ps.length < g1.source.length + 1 := by
    have h1 := rest_length g1
    rw [hr1] at h1
    have h2 : ps.length ≤ (encode ps).length := by
      clear hv h h0 hr1 h1
      induction ps with
      | nil => simp
      | cons a ps ih =>
        rw [encode_cons]
        cases a <;> simp [Piece.bytes] <;> omega
    simp at h1
    omega
  obtain ⟨g2, h2, hm2⟩ := rawLoop_run ps _ g1 out r hr1 hh1 hv hlen
  refine ⟨g2, ?_, ?_⟩
  · unfold body
    rw [rest_setCh h]
    simp only [Res.ok_bind, blockChars.esc, blockChars.escapeBegin, Nat.reduceEqDiff, if_false,
      if_true, caseEscapeBegin]
    rw [hs1]
    simp only [Res.ok_bind]
    rw [h2]
    rfl
  · exact (((Moved.refl_ch g 123).trans hm1).trans hm2).cast (by omega)

theorem BalancedFrom.nil {d : Nat} (h : BalancedFrom d []) : d = 0 := by
  have := h.2
  simpa using this

theorem BalancedFrom.tail_open {d : Nat} {u : List Nat} (h : BalancedFrom d (40 :: u)) :
    BalancedFrom (d + 1) u := by
  refine ⟨fun k hk => ?_, ?_⟩
  · have := h.1 (k + 1) (by simpa using hk)
    simp [List.take_succ_cons, List.count_cons] at this
    omega
  · have := h.2
    simp [List.count_cons] at this
    omega

theorem BalancedFrom.tail_close {d : Nat} {u : List Nat} (h : BalancedFrom d (41 :: u)) :
    d ≠ 0 ∧ BalancedFrom (d - 1) u := by
  have h1 := h.1 1 (by simp)
  simp [List.count_cons] at h1
  refine ⟨by omega, fun k hk => ?_, ?_⟩
  · have := h.1 (k + 1) (by simpa using hk)
    simp [List.take_succ_cons, List.count_cons] at this
    omega
  · have := h.2
    simp [List.count_cons] at this
    omega

theorem BalancedFrom.tail_other {d a : Nat} {u : List Nat} (h : BalancedFrom d (a :: u))
    (h40 : a ≠ 40) (h41 : a ≠ 41) : BalancedFrom d u := by
  refine ⟨fun k hk => ?_, ?_⟩
  · have := h.1 (k + 1) (by simpa using hk)
    simpa [List.take_succ_cons, List.count_cons, h40, h41] using this
  · have := h.2
    simpa [List.count_cons, h40, h41] using this

/-- A URL without parentheses is balanced. -/
theorem balanced_of_no_paren (u : List Nat) (h40 : 40 ∉ u) (h41 : 41 ∉ u) : Balanced u := by
  refine ⟨fun k _ => ?_, ?_⟩
  · have : 41 ∉ u.take k := fun h => h41 (List.mem_of_mem_take h)
    simp [List.count_eq_zero_of_not_mem this]
  · simp [List.count_eq_zero_of_not_mem h40, List.count_eq_zero_of_not_mem h41]

/-- The inner loop of the URL scan followed by the outer loop, on the rest of
a URL that is balanced from the current count of open parentheses: the rest of
the URL is collected and the scan stops on the closing parenthesis after it. -/
theorem urlScan_balanced (u : List Nat) : ∀ (ifuel fuel d : Nat) (g : Globals)
    (acc r : List Nat), rest g = u ++ 41 :: r → (rest g).head? = some g.ch →
    BalancedFrom d u → u.length < ifuel → u.length < fuel →
    ∃ g1, (urlInner ifuel g acc d >>= fun x => urlLoop fuel x.1 x.2.1 x.2.2)
        = .ok (g1, acc ++ u) ∧ Moved g g1 u.length := by
  induction u with
  | nil =>
    intro ifuel fuel d g acc r hr hch hb hi hf
    obtain ⟨i, rfl⟩ := fuel_split hi
    obtain ⟨f, rfl⟩ := fuel_split hf
    have hd : d = 0 := hb.nil
    subst hd
    have hc : g.ch = 41 := by
      rw [hr] at hch
      simpa using hch.symm
    refine ⟨g, ?_, Moved.refl g⟩
    simp only [List.length_nil, Nat.add_zero]
    rw [urlInner, if_neg (by simp)]
    simp only [Res.pure_eq, Res.ok_bind]
    rw [urlLoop, if_neg (by simp [hc])]
    simp
  | cons a u ih =>
    intro ifuel fuel d g acc r hr hch hb hi hf
    obtain ⟨i, rfl⟩ : ∃ i, ifuel = i + 1 := ⟨ifuel - 1, by simp at hi; omega⟩
    obtain ⟨f, rfl⟩ : ∃ f, fuel = f + 1 := ⟨fuel - 1, by simp at hf; omega⟩
    have hil : u.length < i := by simp at hi; omega
    have hfl : u.length < f := by simp at hf; omega
    have hr0 : rest g = a :: (u ++ 41 :: r) := by simpa using hr
    have hc : g.ch = a := by
      rw [hr0] at hch
      simpa using hch.symm
    obtain ⟨g1, hs1, hr1, hh1, hm1⟩ := setCh_next_moved hr0 (by simp)
    have hlen1 : u.length < g1.source.length + 1 := by
      have := rest_length g1
      rw [hr1] at this
      simp at this
      omega
    by_cases ha : a = 41
    · subst ha
      obtain ⟨hd, hb1⟩ := hb.tail_close
      obtain ⟨g2, h2, hm2⟩ := ih i (f + 1) (d - 1) g1 (acc ++ [41]) r hr1 hh1 hb1 hil
        (by omega)
      refine ⟨g2, ?_, (hm1.trans hm2).cast (by simp; omega)⟩
      rw [urlInner, if_pos ⟨hc, hd⟩, hs1]
      simp only [Res.ok_bind, hc]
      simp only [bind_assoc] at h2 ⊢
      rw [show (urlInner i g1 (acc ++ [41]) (d - 1) >>= fun x =>
        urlLoop (f + 1) x.1 x.2.1 x.2.2) = _ from h2]
      simp
    · have hb1 : BalancedFrom (if a = 40 then d + 1 else d) u := by
        by_cases h40 : a = 40
        · subst h40
          simpa using hb.tail_open
        · simpa [h40] using hb.tail_other h40 ha
      obtain ⟨g2, h2, hm2⟩ := ih (g1.source.length + 1) f (if a = 40 then d + 1 else d) g1
        (acc ++ [a]) r hr1 hh1 hb1 hlen1 hfl
      refine ⟨g2, ?_, (hm1.trans hm2).cast (by simp; omega)⟩
      rw [urlInner, if_neg (by rw [hc]; simp [ha])]
      simp only [Res.pure_eq, Res.ok_bind]
      rw [urlLoop, if_pos ⟨by rw [hc]; exact ha, rest_lt hr0⟩, hs1]
      simp only [Res.ok_bind, hc]
      rw [show (urlInner (g1.source.length + 1) g1 (acc ++ [a]) (if a = 40 then d + 1 else d)
        >>= fun x => urlLoop f x.1 x.2.1 x.2.2) = _ from h2]
      simp

/-- The URL loop on a balanced URL followed by the closing parenthesis: it
collects the whole URL, nested parentheses included, and stops on the closing
parenthesis. -/
theorem urlLoop_balanced (u : List Nat) (g : Globals) (r : List Nat)
    (hr : rest g = u ++ 41 :: r) (hch : (rest g).head? = some g.ch) (hb : Balanced u) :
    ∃ g1, urlLoop (g.source.length + 1) g [] 0 = .ok (g1, u) ∧ Moved g g1 u.length := by
  cases u with
  | nil =>
    have hc : g.ch = 41 := by
      rw [hr] at hch
      simpa using hch.symm
    refine ⟨g, ?_, Moved.refl g⟩
    rw [urlLoop, if_neg (by simp [hc])]
    rfl
  | cons a u =>
    have hr0 : rest g = a :: (u ++ 41 :: r) := by simpa using hr
    have hc : g.ch = a := by
      rw [hr0] at hch
      simpa using hch.symm
    have ha : a ≠ 41 := by
      rintro rfl
      exact (BalancedFrom.tail_close hb).1 rfl
    obtain ⟨g1, hs1, hr1, hh1, hm1⟩ := setCh_next_moved hr0 (by simp)
    have hlen : u.length + 2 ≤ g.source.length := by
      have := rest_length g
      rw [hr0] at this
      simp at this
      omega
    have hb1 : BalancedFrom (if a = 40 then 0 + 1 else 0) u := by
      by_cases h40 : a = 40
      · subst h40
        simpa using BalancedFrom.tail_open hb
      · simpa [h40] using BalancedFrom.tail_other hb h40 ha
    obtain ⟨g2, h2, hm2⟩ := urlScan_balanced u (g1.source.length + 1) g.source.length
      (if a = 40 then 0 + 1 else 0) g1 ([] ++ [a]) r hr1 hh1 hb1 (by rw [hm1.1]; omega)
      (by omega)
    refine ⟨g2, ?_, (hm1.trans hm2).cast (by simp; omega)⟩
    rw [urlLoop, if_pos ⟨by rw [hc]; exact ha, rest_lt hr0⟩, hs1]
    simp only [Res.ok_bind, hc]
    rw [show (urlInner (g1.source.length + 1) g1 ([] ++ [a]) (if a = 40 then 0 + 1 else 0)
      >>= fun x => urlLoop g.source.length x.1 x.2.1 x.2.2) = _ from h2]
    simp

/-- The link case on `@[alt](url)` followed by at least one byte, for an alt
text without `]` and a balanced URL: the body writes the anchor with the whole
URL as `href` and leaves the cursor on the byte after the closing
parenthesis. -/
theorem body_link_url {g : Globals} {alt u tl : List Nat} {c : Nat} (out : List Nat)
    (h : rest g = 64 :: 91 :: (alt ++ 93 :: 40 :: (u ++ 41 :: c :: tl))) (hn : 93 ∉ alt)
    (hb : Balanced u) :
    ∃ g7, body g out = .ok (.loop g7 (out ++ (ascii "\n<a href=\"" ++ u ++ ascii "\">"
        ++ (if alt = [] then u else alt) ++ ascii "</a>\n"))) ∧
      Moved g g7 (alt.length + u.length + 5) := by
  have h0 : rest { g with ch := 64 }
      = 64 :: 91 :: (alt ++ 93 :: 40 :: (u ++ 41 :: c :: tl)) := by
    simpa [rest] using h
  have hm0 : Moved g { g with ch := 64 } 0 := by simp [Moved]
  obtain ⟨g1, hs1, hr1, hh1, hm1⟩ := setCh_next_moved h0 (by simp)
  have hc1 : g1.ch = 91 := by
    rw [hr1] at hh1
    simpa using hh1.symm
  obtain ⟨g2, hs2, hr2, hh2, hm2⟩ := setCh_next_moved hr1 (by simp)
  have hlen : alt.length < g2.source.length + 1 := by
    have := rest_length g2
    rw [hr2] at this
    simp at this
    omega
  have hl := altLoop_run alt _ g2 [] _ hr2 hh2 hn hlen
  have hr3 := rest_skip 93 hr2
  have hm3 : Moved g2 { g2 with current := g2.current + alt.length,
                                peeked := g2.peeked + alt.length, ch := 93 } alt.length := by
    simp [Moved]
  obtain ⟨g4, hs4, hr4, hh4, hm4⟩ := setCh_next_moved hr3 (by simp)
  have hc4 : g4.ch = 40 := by
    rw [hr4] at hh4
    simpa using hh4.symm
  obtain ⟨g5, hs5, hr5, hh5, hm5⟩ := setCh_next_moved hr4 (by simp)
  obtain ⟨g6, hl5, hm6⟩ := urlLoop_balanced u g5 _ hr5 hh5 hb
  have hr6 : rest g6 = 41 :: c :: tl := hm6.rest_eq hr5 rfl
  obtain ⟨g7, hs7, _, _, hm7⟩ := setCh_next_moved hr6 (by simp)
  refine ⟨g7, ?_, ?_⟩
  · unfold body
    rw [rest_setCh h]
    simp only [Res.ok_bind]
    simp only [blockChars.esc, blockChars.escapeBegin, blockChars.bold, blockChars.italics,
      blockChars.underline, blockChars.line, blockChars.newline, blockChars.heading,
      blockChars.link, Nat.reduceEqDiff, if_false, if_true, caseLink]
    rw [hs1]
    simp only [Res.ok_bind, hc1, if_true]
    rw [hs2]
    simp only [Res.ok_bind]
    rw [hl]
    simp only [Res.ok_bind]
    rw [hs4]
    simp only [Res.ok_bind, hc4, ne_eq, not_true_eq_false, if_false]
    rw [hs5]
    simp only [Res.ok_bind]
    rw [hl5]
    simp only [Res.ok_bind, List.nil_append]
    rw [hs7]
    by_cases ha : alt = [] <;> simp [ha]
  · exact (((((((hm0.trans hm1).trans hm2).trans hm3).trans hm4).trans hm5).trans hm6).trans
      hm7).cast (by omega)

/-- The bracket loop of an image on an alt text without `]` and without two
colons in a row: it collects the alt text, leaves width and height empty and
stops on the bracket. -/
theorem imgAltLoop_nodims (alt : List Nat) : ∀ (fuel : Nat) (g : Globals) (acc r : List Nat),
    rest g = alt ++ 93 :: r → (rest g).head? = some g.ch → g.peeked = g.current + 1 →
    93 ∉ alt → NoDoubleColon alt → alt.length < fuel →
    ∃ g1, imgAltLoop fuel g acc = .ok (g1, acc ++ alt, [], []) ∧ Moved g g1 alt.length := by
  induction alt with
  | nil =>
    intro fuel g acc r hr hch _ _ _ hf
    obtain ⟨m, rfl⟩ := fuel_split hf
    have hc : g.ch = 93 := by
      rw [hr] at hch
      simpa using hch.symm
    refine ⟨g, ?_, Moved.refl g⟩
    rw [List.length_nil, Nat.add_zero, imgAltLoop, if_neg (by simp [hc])]
    simp
  | cons a alt ih =>
    intro fuel g acc r hr hch hp hn hcc hf
    obtain ⟨f, rfl⟩ : ∃ f, fuel = f + 1 := ⟨fuel - 1, by simp at hf; omega⟩
    have hfl : alt.length < f := by simp at hf; omega
    have hr0 : rest g = a :: (alt ++ 93 :: r) := by simpa using hr
    have hc : g.ch = a := by
      rw [hr0] at hch
      simpa using hch.symm
    have ha : a ≠ 93 := fun h => hn (by simp [h])
    have hcc1 : (a = 58 → alt.head? ≠ some 58) ∧ NoDoubleColon alt := by
      simpa [NoDoubleColon, doubleColon] using hcc
    obtain ⟨x, l, hx, hx58⟩ : ∃ x l, alt ++ 93 :: r = x :: l ∧ (a = 58 → x ≠ 58) := by
      cases alt with
      | nil => exact ⟨93, r, rfl, fun _ => by decide⟩
      | cons b alt =>
        refine ⟨b, alt ++ 93 :: r, rfl, fun ha58 hb58 => ?_⟩
        exact hcc1.1 ha58 (by simp [hb58])
    obtain ⟨g1, hs1, hr1, hh1, hm1⟩ := setCh_next_moved hr0 (by simp)
    obtain ⟨g2, h2, hm2⟩ := ih f g1 (acc ++ [a]) r hr1 hh1 (hm1.peeked_eq hp)
      (fun h => hn (by simp [h])) hcc1.2 hfl
    refine ⟨g2, ?_, (hm1.trans hm2).cast (by simp; omega)⟩
    rw [imgAltLoop, if_pos ⟨by rw [hc]; exact ha, rest_lt hr0⟩]
    by_cases h58 : a = 58
    · have hpk : peek g = .ok x := by
        have := rest_getElem1 (hx ▸ hr0)
        simp [peek, hp, this]
      rw [if_pos (by rw [hc]; exact h58), hpk]
      simp only [Res.ok_bind, Res.pure_eq, hx58 h58, decide_False, Bool.false_eq_true, if_false]
      rw [hs1]
      simp only [Res.ok_bind, hc]
      rw [h2]
      simp
    · rw [if_neg (by rw [hc]; exact h58)]
      simp only [Res.ok_bind, Res.pure_eq, Bool.false_eq_true, if_false]
      rw [hs1]
      simp only [Res.ok_bind, hc]
      rw [h2]
      simp

/-- The image case on `![alt](url)` followed by at least one byte, for an alt
text without `]` and without two colons in a row and a balanced URL: the body
writes the tag with the whole URL as `src` and leaves the cursor on the byte
after the closing parenthesis. -/
theorem body_image_url {g : Globals} {alt u tl : List Nat} {c : Nat} (out : List Nat)
    (h : rest g = 33 :: 91 :: (alt ++ 93 :: 40 :: (u ++ 41 :: c :: tl)))
    (hp : g.peeked = g.current + 1) (hn : 93 ∉ alt) (hcc : NoDoubleColon alt)
    (hb : Balanced u) :
    ∃ g7, body g out = .ok (.loop g7 (out ++ (ascii "\n<img src=\"" ++ u ++ ascii "\" alt=\""
        ++ (if alt = [] then u else alt) ++ ascii "\">\n"))) ∧
      Moved g g7 (alt.length + u.length + 5) := by
  have h0 : rest { g with ch := 33 }
      = 33 :: 91 :: (alt ++ 93 :: 40 :: (u ++ 41 :: c :: tl)) := by
    simpa [rest] using h
  have hm0 : Moved g { g with ch := 33 } 0 := by simp [Moved]
  obtain ⟨g1, hs1, hr1, hh1, hm1⟩ := setCh_next_moved h0 (by simp)
  have hc1 : g1.ch = 91 := by
    rw [hr1] at hh1
    simpa using hh1.symm
  obtain ⟨g2, hs2, hr2, hh2, hm2⟩ := setCh_next_moved hr1 (by simp)
  have hlen : alt.length < g2.source.length + 1 := by
    have := rest_length g2
    rw [hr2] at this
    simp at this
    omega
  obtain ⟨g3, hl3, hm3⟩ := imgAltLoop_nodims alt _ g2 [] _ hr2 hh2
    (((hm0.trans hm1).trans hm2).peeked_eq hp) hn hcc hlen
  have hr3 : rest g3 = 93 :: 40 :: (u ++ 41 :: c :: tl) := hm3.rest_eq hr2 rfl
  obtain ⟨g4, hs4, hr4, hh4, hm4⟩ := setCh_next_moved hr3 (by simp)
  have hc4 : g4.ch = 40 := by
    rw [hr4] at hh4
    simpa using hh4.symm
  obtain ⟨g5, hs5, hr5, hh5, hm5⟩ := setCh_next_moved hr4 (by simp)
  obtain ⟨g6, hl5, hm6⟩ := urlLoop_balanced u g5 _ hr5 hh5 hb
  have hr6 : rest g6 = 41 :: c :: tl := hm6.rest_eq hr5 rfl
  obtain ⟨g7, hs7, _, _, hm7⟩ := setCh_next_moved hr6 (by simp)
  have hq : ascii "\"" ++ ascii ">\n" = ascii "\">\n" := by decide
  refine ⟨g7, ?_, ?_⟩
  · unfold body
    rw [rest_setCh h]
    simp only [Res.ok_bind]
    simp only [blockChars.esc, blockChars.escapeBegin, blockChars.bold, blockChars.italics,
      blockChars.underline, blockChars.line, blockChars.newline, blockChars.heading,
      blockChars.link, blockChars.image, Nat.reduceEqDiff, if_false, if_true, caseImage]
    rw [hs1]
    simp only [Res.ok_bind, hc1, if_true]
    rw [hs2]
    simp only [Res.ok_bind]
    rw [hl3]
    simp only [Res.ok_bind]
    rw [hs4]
    simp only [Res.ok_bind, hc4, ne_eq, not_true_eq_false, if_false]
    rw [hs5]
    simp only [Res.ok_bind]
    rw [hl5]
    simp only [Res.ok_bind, List.nil_append]
    rw [hs7]
    by_cases ha : alt = [] <;> simp [ha, ← hq]
  · exact (((((((hm0.trans hm1).trans hm2).trans hm3).trans hm4).trans hm5).trans hm6).trans
      hm7).cast (by omega)

/-- A link with a balanced URL followed by a byte `c` and a trigger-free text:
`compile` from a fresh state returns the anchor and the text; `c` is not
written. -/
theorem compile_link_followed (alt u q : List Nat) (c : Nat) (halt : 93 ∉ alt)
    (hb : Balanced u) (hq : TriggerFree q) :
    output (compile fresh (64 :: 91 :: (alt ++ 93 :: 40 :: (u ++ 41 :: c :: q))))
      = .ok (ascii "\n<a href=\"" ++ u ++ ascii "\">" ++ (if alt = [] then u else alt)
          ++ ascii "</a>\n" ++ q) := by
  have hsrc : 64 :: 91 :: (alt ++ 93 :: 40 :: (u ++ 41 :: c :: q))
      = [] ++ ((64 :: 91 :: (alt ++ 93 :: 40 :: (u ++ [41, c]))) ++ q) := by simp
  rw [hsrc]
  obtain ⟨g3, h, _⟩ := mainLoop_construct [] (64 :: 91 :: (alt ++ 93 :: 40 :: (u ++ [41, c]))) q
    (ascii "\n<a href=\"" ++ u ++ ascii "\">" ++ (if alt = [] then u else alt)
      ++ ascii "</a>\n") _
    { fresh with source := [] ++ ((64 :: 91 :: (alt ++ 93 :: 40 :: (u ++ [41, c]))) ++ q) } []
    (by decide) hq (rest_fresh _) (by simp) (by simp [lastState, fresh]) rfl rfl
    (fun g1 out1 h1 _ => by
      obtain ⟨g7, hb7, hm7⟩ := body_link_url out1
        (show rest g1 = 64 :: 91 :: (alt ++ 93 :: 40 :: (u ++ 41 :: c :: q)) by
          simpa using h1) halt hb
      exact ⟨g7, hb7, hm7.cast (by simp; omega)⟩)
    (Nat.lt_succ_self _)
  simp only [List.nil_append, List.append_nil] at h
  unfold compile
  simp only [List.nil_append]
  rw [h]
  rfl

/-- An image without dimensions and with a balanced URL followed by a byte `c`
and a trigger-free text: `compile` from a fresh state returns the tag and the
text; `c` is not written. -/
theorem compile_image_followed (alt u q : List Nat) (c : Nat) (halt : 93 ∉ alt)
    (hcc : NoDoubleColon alt) (hb : Balanced u) (hq : TriggerFree q) :
    output (compile fresh (33 :: 91 :: (alt ++ 93 :: 40 :: (u ++ 41 :: c :: q))))
      = .ok (ascii "\n<img src=\"" ++ u ++ ascii "\" alt=\"" ++ (if alt = [] then u else alt)
          ++ ascii "\">\n" ++ q) := by
  have hsrc : 33 :: 91 :: (alt ++ 93 :: 40 :: (u ++ 41 :: c :: q))
      = [] ++ ((33 :: 91 :: (alt ++ 93 :: 40 :: (u ++ [41, c]))) ++ q) := by simp
  rw [hsrc]
  obtain ⟨g3, h, _⟩ := mainLoop_construct [] (33 :: 91 :: (alt ++ 93 :: 40 :: (u ++ [41, c]))) q
    (ascii "\n<img src=\"" ++ u ++ ascii "\" alt=\"" ++ (if alt = [] then u else alt)
      ++ ascii "\">\n") _
    { fresh with source := [] ++ ((33 :: 91 :: (alt ++ 93 :: 40 :: (u ++ [41, c]))) ++ q) } []
    (by decide) hq (rest_fresh _) (by simp) (by simp [lastState, fresh]) rfl rfl
    (fun g1 out1 h1 hp1 => by
      obtain ⟨g7, hb7, hm7⟩ := body_image_url out1
        (show rest g1 = 33 :: 91 :: (alt ++ 93 :: 40 :: (u ++ 41 :: c :: q)) by
          simpa using h1) hp1 halt hcc hb
      exact ⟨g7, hb7, hm7.cast (by simp; omega)⟩)
    (Nat.lt_succ_self _)
  simp only [List.nil_append, List.append_nil] at h
  unfold compile
  simp only [List.nil_append]
  rw [h]
  rfl

/-- The image case on `![alt::w::h](url)` followed by at least one byte, for
an alt text without colon and `]`, a width without colon, a height without `]`
and a balanced URL: the body writes the tag with the whole URL as `src` and
leaves the cursor on the byte after the closing parenthesis. -/
theorem body_image_dims_url {g : Globals} {alt w h u tl : List Nat} {c : Nat} (out : List Nat)
    (hr : rest g = 33 :: 91 :: (alt ++ 58 :: 58 :: (w ++ 58 :: 58 ::
      (h ++ 93 :: 40 :: (u ++ 41 :: c :: tl)))))
    (hp : g.peeked = g.current + 1)
    (hn : 93 ∉ alt) (hn2 : 58 ∉ alt) (hw : 58 ∉ w) (hh : 93 ∉ h) (hb : Balanced u) :
    ∃ g7, body g out = .ok (.loop g7 (out ++ (ascii "\n<img src=\"" ++ u ++ ascii "\" alt=\""
        ++ (if alt = [] then u else alt) ++ ascii "\""
        ++ (if w ≠ [] then ascii " width=\"" ++ w ++ [34] else [])
        ++ (if h ≠ [] then ascii " height=\"" ++ h ++ [34] else []) ++ ascii ">\n"))) ∧
      Moved g g7 (alt.length + w.length + h.length + u.length + 9) := by
  have h0 : rest { g with ch := 33 } = 33 :: 91 :: (alt ++ 58 :: 58 :: (w ++ 58 :: 58 ::
      (h ++ 93 :: 40 :: (u ++ 41 :: c :: tl)))) := by
    simpa [rest] using hr
  have hm0 : Moved g { g with ch := 33 } 0 := by simp [Moved]
  obtain ⟨g1, hs1, hr1, hh1, hm1⟩ := setCh_next_moved h0 (by simp)
  have hc1 : g1.ch = 91 := by
    rw [hr1] at hh1
    simpa using hh1.symm
  obtain ⟨g2, hs2, hr2, hh2, hm2⟩ := setCh_next_moved hr1 (by simp)
  have hlen : alt.length < g2.source.length + 1 := by
    have := rest_length g2
    rw [hr2] at this
    simp at this
    omega
  obtain ⟨g3, hl3, hr3, hc3, hm3⟩ := imgAltLoop_dims alt _ g2 [] w h _ hr2 hh2
    (((hm0.trans hm1).trans hm2).peeked_eq hp) hn hn2 hw hh hlen
  obtain ⟨g4, hs4, hr4, hh4, hm4⟩ := setCh_next_moved hr3 (by simp)
  have hc4 : g4.ch = 40 := by
    rw [hr4] at hh4
    simpa using hh4.symm
  obtain ⟨g5, hs5, hr5, hh5, hm5⟩ := setCh_next_moved hr4 (by simp)
  obtain ⟨g6, hl5, hm6⟩ := urlLoop_balanced u g5 _ hr5 hh5 hb
  have hr6 : rest g6 = 41 :: c :: tl := hm6.rest_eq hr5 rfl
  obtain ⟨g7, hs7, _, _, hm7⟩ := setCh_next_moved hr6 (by simp)
  refine ⟨g7, ?_, ?_⟩
  · unfold body
    rw [rest_setCh hr]
    simp only [Res.ok_bind]
    simp only [blockChars.esc, blockChars.escapeBegin, blockChars.bold, blockChars.italics,
      blockChars.underline, blockChars.line, blockChars.newline, blockChars.heading,
      blockChars.link, blockChars.image, Nat.reduceEqDiff, if_false, if_true, caseImage]
    rw [hs1]
    simp only [Res.ok_bind, hc1, if_true]
    rw [hs2]
    simp only [Res.ok_bind]
    rw [hl3]
    simp only [Res.ok_bind]
    rw [hs4]
    simp only [Res.ok_bind, hc4, ne_eq, not_true_eq_false, if_false]
    rw [hs5]
    simp only [Res.ok_bind]
    rw [hl5]
    simp only [Res.ok_bind, List.nil_append]
    rw [hs7]
    by_cases ha : alt = [] <;> by_cases hw0 : w = [] <;> by_cases hh0 : h = [] <;>
      simp [ha, hw0, hh0]
  · exact (((((((hm0.trans hm1).trans hm2).trans hm3).trans hm4).trans hm5).trans hm6).trans
      hm7).cast (by omega)

/-- An image with dimensions and a balanced URL followed by a byte `c` and a
trigger-free text: `compile` from a fresh state returns the tag and the text;
`c` is not written. -/
theorem compile_image_dims_followed (alt w h u q : List Nat) (c : Nat) (halt : 93 ∉ alt)
    (halt2 : 58 ∉ alt) (hw : 58 ∉ w) (hh : 93 ∉ h) (hb : Balanced u) (hq : TriggerFree q) :
    output (compile fresh (33 :: 91 :: (alt ++ 58 :: 58 :: (w ++ 58 :: 58 ::
        (h ++ 93 :: 40 :: (u ++ 41 :: c :: q))))))
      = .ok (ascii "\n<img src=\"" ++ u ++ ascii "\" alt=\"" ++ (if alt = [] then u else alt)
          ++ ascii "\"" ++ (if w ≠ [] then ascii " width=\"" ++ w ++ [34] else [])
          ++ (if h ≠ [] then ascii " height=\"" ++ h ++ [34] else []) ++ ascii ">\n" ++ q) := by
  have hsrc : 33 :: 91 :: (alt ++ 58 :: 58 :: (w ++ 58 :: 58 ::
        (h ++ 93 :: 40 :: (u ++ 41 :: c :: q))))
      = [] ++ ((33 :: 91 :: (alt ++ 58 :: 58 :: (w ++ 58 :: 58 ::
        (h ++ 93 :: 40 :: (u ++ [41, c]))))) ++ q) := by simp
  rw [hsrc]
  obtain ⟨g3, h3, _⟩ := mainLoop_construct []
    (33 :: 91 :: (alt ++ 58 :: 58 :: (w ++ 58 :: 58 :: (h ++ 93 :: 40 :: (u ++ [41, c]))))) q
    (ascii "\n<img src=\"" ++ u ++ ascii "\" alt=\"" ++ (if alt = [] then u else alt)
      ++ ascii "\"" ++ (if w ≠ [] then ascii " width=\"" ++ w ++ [34] else [])
      ++ (if h ≠ [] then ascii " height=\"" ++ h ++ [34] else []) ++ ascii ">\n") _
    { fresh with source := [] ++ ((33 :: 91 :: (alt ++ 58 :: 58 :: (w ++ 58 :: 58 ::
        (h ++ 93 :: 40 :: (u ++ [41, c]))))) ++ q) } []
    (by decide) hq (rest_fresh _) (by simp) (by simp [lastState, fresh]) rfl rfl
    (fun g1 out1 h1 hp1 => by
      obtain ⟨g7, hb7, hm7⟩ := body_image_dims_url out1
        (show rest g1 = 33 :: 91 :: (alt ++ 58 :: 58 :: (w ++ 58 :: 58 ::
          (h ++ 93 :: 40 :: (u ++ 41 :: c :: q)))) by simpa using h1) hp1 halt halt2 hw hh hb
      exact ⟨g7, hb7, hm7.cast (by simp; omega)⟩)
    (Nat.lt_succ_self _)
  simp only [List.nil_append, List.append_nil] at h3
  unfold compile
  simp only [List.nil_append]
  rw [h3]
  rfl

/-- C1: an input made only of bytes that are not markup triggers is returned
unchanged by `compile`, run from a fresh state (`preserveNewLines` false),
line feeds included. -/
theorem C1_passthrough (t : List Nat) (h : TriggerFree t) :
    output (compile fresh t) = .ok t := by
  obtain ⟨ch1, hm⟩ := mainLoop_plain t [] 1 { fresh with source := t } []
    (by simp [rest_fresh]) h (fun _ => by simp [lastState, fresh])
  unfold compile
  rw [Nat.add_comm, hm, mainLoop_end]
  · simp [output]
  · simp [rest, fresh]

/-- C1, at the text "hello\nworld}". -/
theorem C1_passthrough_witness :
    TriggerFree (ascii "hello\nworld\x7d") ∧
      output (compile fresh (ascii "hello\nworld\x7d")) = .ok (ascii "hello\nworld\x7d") :=
  ⟨by decide, C1_passthrough (ascii "hello\nworld\x7d") (by decide)⟩

/-- C2 (the code fails here): `compile`, run from a fresh state, panics with
an index out of range on inputs that end in a trigger byte (";", "-", "--", a
lone backslash, "#", "@", "!") and on an unterminated raw, code, link or image
region, instead of returning a string. -/
theorem C2_panics_at_end_of_input :
    compile fresh (ascii ";") = .panic ∧ compile fresh (ascii "-") = .panic ∧
    compile fresh (ascii "--") = .panic ∧ compile fresh (ascii "\\") = .panic ∧
    compile fresh (ascii "#") = .panic ∧ compile fresh (ascii "@") = .panic ∧
    compile fresh (ascii "!") = .panic ∧ compile fresh (ascii "\x7babc") = .panic ∧
    compile fresh (ascii "\x60abc") = .panic ∧ compile fresh (ascii "@[abc") = .panic ∧
    compile fresh (ascii "![abc") = .panic := by
  decide

/-- C3: toggles alternate between opening and closing in encounter order.
For trigger-free segments `t0 .. tk` joined by `*`, `compile` from a fresh
state returns `t0 <strong> t1 </strong> t2 <strong> ...`; the same holds for
`/` with `<em>`, `</em>` and for `_` with `<u>`, `</u>`. -/
theorem C3_toggles_alternate (ts : List (List Nat)) (h : ∀ t ∈ ts, TriggerFree t) :
    output (compile fresh (joined 42 ts))
        = .ok (alternate (ascii "<strong>") (ascii "</strong>") false ts) ∧
    output (compile fresh (joined 47 ts))
        = .ok (alternate (ascii "<em>") (ascii "</em>") false ts) ∧
    output (compile fresh (joined 95 ts))
        = .ok (alternate (ascii "<u>") (ascii "</u>") false ts) := by
  refine ⟨?_, ?_, ?_⟩
  · simpa using mainLoop_toggles
      (show (42, bold, ascii "<strong>", ascii "</strong>") ∈ toggles by simp [toggles]) ts false _
      { fresh with source := joined 42 ts } [] h (rest_fresh _) rfl rfl (Nat.lt_succ_self _)
  · simpa using mainLoop_toggles
      (show (47, italics, ascii "<em>", ascii "</em>") ∈ toggles by simp [toggles]) ts false _
      { fresh with source := joined 47 ts } [] h (rest_fresh _) rfl rfl (Nat.lt_succ_self _)
  · simpa using mainLoop_toggles
      (show (95, underline, ascii "<u>", ascii "</u>") ∈ toggles by simp [toggles]) ts false _
      { fresh with source := joined 95 ts } [] h (rest_fresh _) rfl rfl (Nat.lt_succ_self _)

/-- C3, at the inputs "*a*b*c*", "/a/b/c/", "_a_b_c_" and "*bold*". -/
theorem C3_toggles_alternate_witness :
    (∀ t ∈ [[], ascii "a", ascii "b", ascii "c", []], TriggerFree t) ∧
    (output (compile fresh (ascii "*a*b*c*")) = .ok (ascii "<strong>a</strong>b<strong>c</strong>") ∧
      output (compile fresh (ascii "/a/b/c/")) = .ok (ascii "<em>a</em>b<em>c</em>") ∧
      output (compile fresh (ascii "_a_b_c_")) = .ok (ascii "<u>a</u>b<u>c</u>")) ∧
    output (compile fresh (ascii "*bold*")) = .ok (ascii "<strong>bold</strong>") :=
  ⟨by decide, C3_toggles_alternate [[], ascii "a", ascii "b", ascii "c", []] (by decide),
    (C3_toggles_alternate [[], ascii "bold", []] (by decide)).1⟩

/-- C4: a toggle byte closes its construct exactly when the top of the
open-state stack is that same state and pushes a new entry otherwise, whatever
lies below the top.  Hence "*_x_*" gives `<strong><u>x</u></strong>`, while
"*_x*_" gives `<strong><u>x<strong><u>` and leaves four entries on the stack. -/
theorem C4_toggle_checks_top_only :
    (∀ (g : Globals) (r out : List Nat) (c st : Nat) (op cl : List Nat),
      (c, st, op, cl) ∈ toggles → rest g = c :: r →
      body g out = .ok (if g.openStates.getLast? = some st
        then .loop { g with ch := c, openStates := g.openStates.dropLast } (out ++ cl)
        else .loop { g with ch := c, openStates := g.openStates ++ [st] } (out ++ op))) ∧
    output (compile fresh (ascii "*_x_*")) = .ok (ascii "<strong><u>x</u></strong>") ∧
    output (compile fresh (ascii "*_x*_")) = .ok (ascii "<strong><u>x<strong><u>") ∧
    stackAfter (compile fresh (ascii "*_x*_")) = .ok [bold, underline, bold, underline] := by
  refine ⟨?_, by decide, by decide, by decide⟩
  intro g r out c st op cl hm h
  rw [body_toggle out hm h, caseToggle_eq]

/-- C5: a horizontal rule is recognised only with an empty open-state stack.
For trigger-free texts `p` and `q`, `compile` from a fresh state turns
`p --- q` into `p <hr> q` (and "---" into `<hr>`).  With a non-empty stack the
body of the loop copies the dash instead, so "*---*" gives
`<strong>---</strong>`. -/
theorem C5_horizontal_rule (p q : List Nat) (hp : TriggerFree p) (hq : TriggerFree q) :
    output (compile fresh (p ++ ascii "---" ++ q)) = .ok (p ++ ascii "<hr>" ++ q) ∧
    output (compile fresh (ascii "---")) = .ok (ascii "<hr>") ∧
    (∀ (g : Globals) (r out : List Nat), rest g = 45 :: 45 :: 45 :: r →
      g.peeked = g.current + 1 → g.openStates ≠ [] →
      body g out = .ok (.loop { g with ch := 45 } (out ++ [45]))) ∧
    output (compile fresh (ascii "*---*")) = .ok (ascii "<strong>---</strong>") := by
  refine ⟨?_, by decide, fun g r out h hpk hs => body_dash_open out h hpk hs, by decide⟩
  have hd : ascii "---" = [45, 45, 45] := by decide
  have hsrc : p ++ ascii "---" ++ q = p ++ 45 :: 45 :: 45 :: q := by simp [hd]
  rw [hsrc]
  have h := mainLoop_hr p q _ { fresh with source := p ++ 45 :: 45 :: 45 :: q } [] hp hq
    (rest_fresh _) rfl rfl rfl (Nat.lt_succ_self _)
  simp only [List.nil_append] at h
  exact h

/-- C5, at the input "ab---cd". -/
theorem C5_horizontal_rule_witness :
    (TriggerFree (ascii "ab") ∧ TriggerFree (ascii "cd")) ∧
    output (compile fresh (ascii "ab---cd")) = .ok (ascii "ab<hr>cd") :=
  ⟨by decide, (C5_horizontal_rule (ascii "ab") (ascii "cd") (by decide) (by decide)).1⟩

/-- Behaviour around C6 that the code does have: for trigger-free texts `p`
and `q`, `p ;; q` compiles to `p <br> q`, and a semicolon followed by a
non-trigger byte is copied. -/
theorem semicolon_followed (p q : List Nat) (c : Nat) (hp : TriggerFree p)
    (hq : TriggerFree q) (hc : ¬ isTrigger c) :
    output (compile fresh (p ++ ascii ";;" ++ q)) = .ok (p ++ ascii "<br>" ++ q) ∧
    output (compile fresh (p ++ ascii ";" ++ c :: q)) = .ok (p ++ ascii ";" ++ c :: q) := by
  have hd : ascii ";;" = [59, 59] := by decide
  have hd1 : ascii ";" = [59] := by decide
  have hsrc : p ++ ascii ";;" ++ q = p ++ 59 :: 59 :: q := by simp [hd]
  have hsrc1 : p ++ ascii ";" ++ c :: q = p ++ 59 :: c :: q := by simp [hd1]
  have hcq : TriggerFree (c :: q) := by
    intro b hb
    rcases List.mem_cons.1 hb with rfl | hb
    · exact hc
    · exact hq b hb
  rw [hsrc, hsrc1]
  constructor
  · have h := mainLoop_br p q _ { fresh with source := p ++ 59 :: 59 :: q } [] hp hq
      (rest_fresh _) (by simp [lastState, fresh]) rfl rfl (Nat.lt_succ_self _)
    simp only [List.nil_append] at h
    exact h
  · have h := mainLoop_semicolon p q c _ { fresh with source := p ++ 59 :: c :: q } [] hp hcq
      (rest_fresh _) (by simp [lastState, fresh]) rfl rfl (Nat.lt_succ_self _)
    simp only [List.nil_append] at h
    exact h

/-- C6 (the code fails here): a semicolon that is the last byte of the input
is not emitted literally.  After any trigger-free text `p`, `compile` from a
fresh state panics on `p ;` at `peek()`, which reads the source one byte past
its end. -/
theorem C6_last_semicolon_panics (p : List Nat) (hp : TriggerFree p) :
    compile fresh (p ++ ascii ";") = .panic := by
  have hd : ascii ";" = [59] := by decide
  rw [hd]
  have hfuel : (p ++ [59]).length + 1 = (1 + 1) + p.length := by simp; omega
  unfold compile
  rw [hfuel]
  obtain ⟨ch1, h1⟩ := mainLoop_plain p [59] (1 + 1) { fresh with source := p ++ [59] } []
    (rest_fresh _) hp (fun _ => by simp [lastState, fresh])
  have hr1 := rest_skip ch1 (rest_fresh (p ++ [59]))
  rw [h1, mainLoop, if_pos (rest_lt hr1), body_semicolon_last _ hr1 (by simp [fresh]; omega)]

/-- C6, at the inputs ";" and "a;". -/
theorem C6_last_semicolon_panics_witness :
    (TriggerFree [] ∧ TriggerFree (ascii "a")) ∧
    compile fresh (ascii ";") = .panic ∧ compile fresh (ascii "a;") = .panic :=
  ⟨by decide, C6_last_semicolon_panics [] (by decide),
    C6_last_semicolon_panics (ascii "a") (by decide)⟩

/-- C7: for a level `n` from 1 to 6 and a trigger-free text `t` without line
feed, `compile` from a fresh state turns `n` bytes `#`, `t` and a line feed
into `<hn>`, `t`, `</hn>`: the line feed closes the heading at the same level,
is not written itself, and the stack is empty afterwards. -/
theorem C7_heading (n : Nat) (t : List Nat) (h1 : 1 ≤ n) (h6 : n ≤ 6) (ht : TriggerFree t)
    (hnl : 10 ∉ t) :
    output (compile fresh (List.replicate n 35 ++ t ++ [10]))
        = .ok (ascii "<h" ++ [48 + n] ++ ascii ">" ++ t ++ ascii "</h" ++ [48 + n] ++ ascii ">") ∧
    stackAfter (compile fresh (List.replicate n 35 ++ t ++ [10])) = .ok [] := by
  obtain ⟨g1, h, hs⟩ := mainLoop_heading n t _
    { fresh with source := List.replicate n 35 ++ t ++ [10] } [] h1 h6 ht hnl (rest_fresh _) rfl
    (Nat.lt_succ_self _)
  simp only [List.nil_append] at h
  unfold compile
  rw [h]
  exact ⟨rfl, congrArg Res.ok hs⟩

/-- C7, at the input "# Title\n". -/
theorem C7_heading_witness :
    (1 ≤ 1 ∧ 1 ≤ 6 ∧ TriggerFree (ascii " Title") ∧ 10 ∉ ascii " Title") ∧
    output (compile fresh (ascii "# Title\n")) = .ok (ascii "<h1> Title</h1>") ∧
    stackAfter (compile fresh (ascii "# Title\n")) = .ok [] :=
  ⟨by decide, C7_heading 1 (ascii " Title") (by decide) (by decide) (by decide) (by decide)⟩

/-- C8 (the code fails here): a link that ends the input makes `compile`
panic.  For every trigger-free text `p`, alt text without `]` and URL without
parentheses, `compile` from a fresh state panics on `p @[alt](url)`: after the
closing parenthesis the code moves the cursor once more and reads the source
there. -/
theorem C8_link_at_end_panics (p alt u : List Nat) (hp : TriggerFree p) (halt : 93 ∉ alt)
    (hu : 40 ∉ u) (hu2 : 41 ∉ u) :
    compile fresh (p ++ ascii "@[" ++ alt ++ ascii "](" ++ u ++ ascii ")") = .panic := by
  have hd1 : ascii "@[" = [64, 91] := by decide
  have hd2 : ascii "](" = [93, 40] := by decide
  have hd3 : ascii ")" = [41] := by decide
  have hs1 : p ++ ascii "@[" ++ alt ++ ascii "](" ++ u ++ ascii ")"
      = p ++ (64 :: 91 :: (alt ++ 93 :: 40 :: (u ++ 41 :: []))) := by simp [hd1, hd2, hd3]
  rw [hs1]
  generalize hsrc : p ++ (64 :: 91 :: (alt ++ 93 :: 40 :: (u ++ 41 :: []))) = src
  have hfuel : src.length + 1 = (src.length - p.length + 1) + p.length := by
    rw [← hsrc]; simp; omega
  unfold compile
  rw [hfuel]
  obtain ⟨ch1, h1⟩ := mainLoop_plain p _ (src.length - p.length + 1) { fresh with source := src }
    [] (by rw [rest_fresh, ← hsrc]) hp (fun _ => by simp [lastState, fresh])
  have hr1 := rest_skip ch1 (show rest { fresh with source := src } = p ++ _ by
    rw [rest_fresh, ← hsrc])
  obtain ⟨g6, hr6, _, hb⟩ := body_link_scan ([] ++ p) hr1 halt hu hu2
  rw [h1, mainLoop, if_pos (rest_lt hr1), hb, setCh_end (rest_next hr6)]
  rfl

/-- C8, at the inputs "@[text](http://example.com)" and "@[](b)". -/
theorem C8_link_at_end_panics_witness :
    (TriggerFree [] ∧ 93 ∉ ascii "text" ∧ 40 ∉ ascii "http://example.com" ∧
      41 ∉ ascii "http://example.com") ∧
    compile fresh (ascii "@[text](http://example.com)") = .panic ∧
    compile fresh (ascii "@[](b)") = .panic :=
  ⟨by decide,
    C8_link_at_end_panics [] (ascii "text") (ascii "http://example.com") (by decide) (by decide)
      (by decide) (by decide),
    C8_link_at_end_panics [] [] (ascii "b") (by decide) (by decide) (by decide) (by decide)⟩

/-- Behaviour around C8 that the code does have: with one more byte after the
link the anchor is returned, and that byte is dropped. -/
theorem link_followed_example :
    output (compile fresh (ascii "@[text](http://example.com)X"))
      = .ok (ascii "\n<a href=\"http://example.com\">text</a>\n") ∧
    output (compile fresh (ascii "@[](b)X")) = .ok (ascii "\n<a href=\"b\">b</a>\n") := by
  decide

/-- C9 (the code fails here): an image that ends the input makes `compile`
panic.  For every trigger-free text `p`, alt text without colon and `]`, width
without colon, height without `]` and URL without parentheses, `compile` from
a fresh state panics on `p ![alt::w::h](url)`: after the closing parenthesis
the code moves the cursor once more and reads the source there. -/
theorem C9_image_at_end_panics (p alt w h u : List Nat) (hp : TriggerFree p)
    (halt : 93 ∉ alt) (halt2 : 58 ∉ alt) (hw : 58 ∉ w) (hh : 93 ∉ h)
    (hu : 40 ∉ u) (hu2 : 41 ∉ u) :
    compile fresh (p ++ ascii "![" ++ alt ++ ascii "::" ++ w ++ ascii "::" ++ h ++ ascii "]("
      ++ u ++ ascii ")") = .panic := by
  have hd1 : ascii "![" = [33, 91] := by decide
  have hd2 : ascii "](" = [93, 40] := by decide
  have hd3 : ascii ")" = [41] := by decide
  have hd4 : ascii "::" = [58, 58] := by decide
  have hs1 : p ++ ascii "![" ++ alt ++ ascii "::" ++ w ++ ascii "::" ++ h ++ ascii "]("
      ++ u ++ ascii ")"
      = p ++ (33 :: 91 :: (alt ++ 58 :: 58 :: (w ++ 58 :: 58 ::
          (h ++ 93 :: 40 :: (u ++ 41 :: []))))) := by simp [hd1, hd2, hd3, hd4]
  rw [hs1]
  generalize hsrc : p ++ (33 :: 91 :: (alt ++ 58 :: 58 :: (w ++ 58 :: 58 ::
          (h ++ 93 :: 40 :: (u ++ 41 :: []))))) = src
  have hfuel : src.length + 1 = (src.length - p.length + 1) + p.length := by
    rw [← hsrc]; simp; omega
  unfold compile
  rw [hfuel]
  obtain ⟨ch1, h1⟩ := mainLoop_plain p _ (src.length - p.length + 1) { fresh with source := src }
    [] (by rw [rest_fresh, ← hsrc]) hp (fun _ => by simp [lastState, fresh])
  have hr1 := rest_skip ch1 (show rest { fresh with source := src } = p ++ _ by
    rw [rest_fresh, ← hsrc])
  obtain ⟨g6, hr6, _, hb⟩ := body_image_scan ([] ++ p) hr1 (by simp [fresh]; omega) halt halt2
    hw hh hu hu2
  rw [h1, mainLoop, if_pos (rest_lt hr1), hb, setCh_end (rest_next hr6)]
  rfl

/-- C9, at the input "![alt::100::50](img.png)". -/
theorem C9_image_at_end_panics_witness :
    (TriggerFree [] ∧ 93 ∉ ascii "alt" ∧ 58 ∉ ascii "alt" ∧ 58 ∉ ascii "100" ∧
      93 ∉ ascii "50" ∧ 40 ∉ ascii "img.png" ∧ 41 ∉ ascii "img.png") ∧
    compile fresh (ascii "![alt::100::50](img.png)") = .panic :=
  ⟨by decide,
    C9_image_at_end_panics [] (ascii "alt") (ascii "100") (ascii "50") (ascii "img.png")
      (by decide) (by decide) (by decide) (by decide) (by decide) (by decide) (by decide)⟩

/-- Behaviour around C9 that the code does have: with one more byte after the
image the tag is returned, with the attributes `src`, `alt`, `width`, `height`
in that order, and that byte is dropped. -/
theorem image_followed_example :
    output (compile fresh (ascii "![alt::100::50](img.png)X"))
      = .ok (ascii "\n<img src=\"img.png\" alt=\"alt\" width=\"100\" height=\"50\">\n") := by
  decide

/-- C10: a link or image whose closing `]` is followed by a byte `c` other
than `(` aborts the whole compilation.  For a trigger-free text `p`, an alt
text without `]` (and without colon for an image) and any remaining input,
`compile` from a fresh state returns the empty string, although `p` had been
written to the buffer. -/
theorem C10_malformed_link_aborts (p alt r : List Nat) (c : Nat) (hp : TriggerFree p)
    (halt : 93 ∉ alt) (hc : c ≠ 40) :
    output (compile fresh (p ++ ascii "@[" ++ alt ++ ascii "]" ++ c :: r)) = .ok [] ∧
    (58 ∉ alt →
      output (compile fresh (p ++ ascii "![" ++ alt ++ ascii "]" ++ c :: r)) = .ok []) := by
  have hd1 : ascii "@[" = [64, 91] := by decide
  have hd2 : ascii "![" = [33, 91] := by decide
  have hd3 : ascii "]" = [93] := by decide
  have hs1 : p ++ ascii "@[" ++ alt ++ ascii "]" ++ c :: r
      = p ++ (64 :: 91 :: (alt ++ 93 :: c :: r)) := by simp [hd1, hd3]
  have hs2 : p ++ ascii "![" ++ alt ++ ascii "]" ++ c :: r
      = p ++ (33 :: 91 :: (alt ++ 93 :: c :: r)) := by simp [hd2, hd3]
  rw [hs1, hs2]
  refine ⟨?_, fun hcolon => ?_⟩
  · exact mainLoop_abort p _ _ { fresh with source := p ++ (64 :: 91 :: (alt ++ 93 :: c :: r)) } []
      hp (rest_fresh _) (by simp) (by simp [lastState, fresh]) rfl
      (fun g1 out1 h => body_link_abort out1 h halt hc) (by simp; omega)
  · exact mainLoop_abort p _ _ { fresh with source := p ++ (33 :: 91 :: (alt ++ 93 :: c :: r)) } []
      hp (rest_fresh _) (by simp) (by simp [lastState, fresh]) rfl
      (fun g1 out1 h => body_image_abort out1 h halt hcolon hc) (by simp; omega)

/-- C10, at the inputs "@[text]notparen", "abc@[text]notparen" and
"abc![text]notparen". -/
theorem C10_malformed_link_aborts_witness :
    (TriggerFree (ascii "abc") ∧ 93 ∉ ascii "text" ∧ 110 ≠ 40 ∧ 58 ∉ ascii "text") ∧
    output (compile fresh (ascii "@[text]notparen")) = .ok [] ∧
    output (compile fresh (ascii "abc@[text]notparen")) = .ok [] ∧
    output (compile fresh (ascii "abc![text]notparen")) = .ok [] :=
  ⟨by decide,
    (C10_malformed_link_aborts [] (ascii "text") (ascii "otparen") 110 (by decide) (by decide)
      (by decide)).1,
    (C10_malformed_link_aborts (ascii "abc") (ascii "text") (ascii "otparen") 110 (by decide)
      (by decide) (by decide)).1,
    (C10_malformed_link_aborts (ascii "abc") (ascii "text") (ascii "otparen") 110 (by decide)
      (by decide) (by decide)).2 (by decide)⟩

/-- C12: a backslash makes the next byte literal.  For every byte `c`, trigger
or not, and trigger-free texts `p` and `q`, `compile` from a fresh state turns
`p \ c q` into `p c q` and leaves the open-state stack empty, as it was. -/
theorem C12_backslash_escapes (p q : List Nat) (c : Nat) (hp : TriggerFree p)
    (hq : TriggerFree q) :
    output (compile fresh (p ++ ascii "\\" ++ c :: q)) = .ok (p ++ c :: q) ∧
    stackAfter (compile fresh (p ++ ascii "\\" ++ c :: q)) = .ok [] := by
  have hd : ascii "\\" = [92] := by decide
  have hsrc : p ++ ascii "\\" ++ c :: q = p ++ ([92, c] ++ q) := by simp [hd]
  rw [hsrc]
  obtain ⟨g3, h, hs⟩ := mainLoop_construct p [92, c] q [c] _
    { fresh with source := p ++ ([92, c] ++ q) } [] hp hq (rest_fresh _) (by simp)
    (by simp [lastState, fresh]) rfl rfl
    (fun g1 out1 h1 _ => body_esc out1 (by simpa using h1)) (Nat.lt_succ_self _)
  simp only [List.nil_append] at h
  unfold compile
  rw [h]
  exact ⟨by simp [output], by simp [stackAfter, hs, fresh]⟩

/-- C12, at the inputs "a\*b" and "a\\b". -/
theorem C12_backslash_escapes_witness :
    (TriggerFree (ascii "a") ∧ TriggerFree (ascii "b")) ∧
    (output (compile fresh (ascii "a\\*b")) = .ok (ascii "a*b") ∧
      stackAfter (compile fresh (ascii "a\\*b")) = .ok []) ∧
    output (compile fresh (ascii "a\\\\b")) = .ok (ascii "a\\b") :=
  ⟨by decide, C12_backslash_escapes (ascii "a") (ascii "b") 42 (by decide) (by decide),
    (C12_backslash_escapes (ascii "a") (ascii "b") 92 (by decide) (by decide)).1⟩

/-- C13: a raw region copies its body and ends at the first unescaped `}`.
For a body of bytes other than `}` and backslash and of escape pairs, and a
trigger-free text `q`, `compile` from a fresh state turns `{ body } q` into
the unescaped body followed by `q`; no brace is written and the stack is
empty, as it was. -/
theorem C13_raw_region (ps : List Piece) (q : List Nat) (hv : ∀ a ∈ ps, a.Avoids 125)
    (hq : TriggerFree q) :
    output (compile fresh (ascii "\x7b" ++ encode ps ++ ascii "\x7d" ++ q))
      = .ok (unescape ps ++ q) ∧
    stackAfter (compile fresh (ascii "\x7b" ++ encode ps ++ ascii "\x7d" ++ q)) = .ok [] := by
  have hd1 : ascii "\x7b" = [123] := by decide
  have hd2 : ascii "\x7d" = [125] := by decide
  have hsrc : ascii "\x7b" ++ encode ps ++ ascii "\x7d" ++ q
      = [] ++ ((123 :: (encode ps ++ [125])) ++ q) := by simp [hd1, hd2]
  rw [hsrc]
  obtain ⟨g3, h, hs⟩ := mainLoop_construct [] (123 :: (encode ps ++ [125])) q (unescape ps) _
    { fresh with source := [] ++ ((123 :: (encode ps ++ [125])) ++ q) } [] (by decide) hq
    (rest_fresh _) (by simp) (by simp [lastState, fresh]) rfl rfl
    (fun g1 out1 h1 _ => by
      obtain ⟨g2, hb, hm⟩ := body_raw out1 (show rest g1 = 123 :: (encode ps ++ 125 :: q) by
        simpa using h1) hv
      exact ⟨g2, hb, by simpa using hm⟩)
    (Nat.lt_succ_self _)
  simp only [List.nil_append, List.append_nil] at h
  unfold compile
  simp only [List.nil_append]
  rw [h]
  exact ⟨by simp [output], by simp [stackAfter, hs, fresh]⟩

/-- C13, at the input "{a*b\}c}d". -/
theorem C13_raw_region_witness :
    ((∀ a ∈ [Piece.byte 97, .byte 42, .byte 98, .pair 125, .byte 99], a.Avoids 125) ∧
      TriggerFree (ascii "d")) ∧
    output (compile fresh (ascii "\x7ba*b\\\x7dc\x7dd")) = .ok (ascii "a*b\x7dcd") ∧
    stackAfter (compile fresh (ascii "\x7ba*b\\\x7dc\x7dd")) = .ok [] :=
  ⟨by decide, C13_raw_region [.byte 97, .byte 42, .byte 98, .pair 125, .byte 99] (ascii "d")
    (by decide) (by decide)⟩

/-- C17 (the code fails here): an `@` or `!` that is not followed by `[` does
not leave the following byte to the next round.  For every byte `c` other than
`[` and every trigger-free text `q`, `compile` from a fresh state returns `q`
alone on `@ c q` and on `! c q`: the byte `c` is read by the link or image
case and then skipped by the step of the main loop. -/
theorem C17_gate_swallows_next_byte (c : Nat) (q : List Nat) (hc : c ≠ 91)
    (hq : TriggerFree q) :
    output (compile fresh (ascii "@" ++ c :: q)) = .ok q ∧
    output (compile fresh (ascii "!" ++ c :: q)) = .ok q := by
  have hd1 : ascii "@" = [64] := by decide
  have hd2 : ascii "!" = [33] := by decide
  have hs1 : ascii "@" ++ c :: q = [] ++ ([64, c] ++ q) := by simp [hd1]
  have hs2 : ascii "!" ++ c :: q = [] ++ ([33, c] ++ q) := by simp [hd2]
  rw [hs1, hs2]
  constructor
  · obtain ⟨g3, h, _⟩ := mainLoop_construct [] [64, c] q [] _
      { fresh with source := [] ++ ([64, c] ++ q) } [] (by decide) hq
      (rest_fresh _) (by simp) (by simp [lastState, fresh]) rfl rfl
      (fun g1 out1 h1 _ => body_gate out1 (Or.inl rfl) (by simpa using h1) hc)
      (Nat.lt_succ_self _)
    simp only [List.nil_append, List.append_nil] at h
    unfold compile
    simp only [List.nil_append]
    rw [h]
    rfl
  · obtain ⟨g3, h, _⟩ := mainLoop_construct [] [33, c] q [] _
      { fresh with source := [] ++ ([33, c] ++ q) } [] (by decide) hq
      (rest_fresh _) (by simp) (by simp [lastState, fresh]) rfl rfl
      (fun g1 out1 h1 _ => body_gate out1 (Or.inr rfl) (by simpa using h1) hc)
      (Nat.lt_succ_self _)
    simp only [List.nil_append, List.append_nil] at h
    unfold compile
    simp only [List.nil_append]
    rw [h]
    rfl

/-- C17, at the inputs "@xy" and "!xy": the result is "y", not "xy". -/
theorem C17_gate_swallows_next_byte_witness :
    (120 ≠ 91 ∧ TriggerFree (ascii "y")) ∧
    output (compile fresh (ascii "@xy")) = .ok (ascii "y") ∧
    output (compile fresh (ascii "!xy")) = .ok (ascii "y") :=
  ⟨by decide, C17_gate_swallows_next_byte 120 (ascii "y") (by decide) (by decide)⟩

/-- C11 (the code fails here): in a code span the byte after an escape pair is
written without being looked at.  With the closing backtick right after the
pair the backtick is written and `compile` panics at the end of the input;
with a second escape pair right after the first its backslash is written.
The input of the specification, where a plain byte follows the pair, gives
`<pre>a` + backtick + `b</pre>`. -/
theorem C11_code_span_after_escape_pair :
    compile fresh (ascii "\x60" ++ encode [.pair 97] ++ ascii "\x60") = .panic ∧
    compile fresh (ascii "\x60" ++ encode [.byte 97, .pair 92] ++ ascii "\x60") = .panic ∧
    output (compile fresh (ascii "\x60" ++ encode [.pair 97, .pair 98] ++ ascii "\x60"))
      = .ok (ascii "<pre>" ++ [97, 92, 98] ++ ascii "</pre>") ∧
    unescape [.pair 97, .pair 98] = [97, 98] ∧
    output (compile fresh (ascii "\x60" ++ encode [.byte 97, .pair 96, .byte 98] ++ ascii "\x60"))
      = .ok (ascii "<pre>" ++ unescape [.byte 97, .pair 96, .byte 98] ++ ascii "</pre>") := by
  decide

/-- C14 (the code fails here): the variables persist across calls.  For every
trigger-free text `s`, a second call of `compile` on `s` right after a first
one returns the empty string: the cursor of the first call is still at the end
of the source. -/
theorem C14_second_call_keeps_cursor (s : List Nat) (hs : TriggerFree s) :
    output (compile fresh s) = .ok s ∧ compileAfter s s = .ok [] ∧
    (s ≠ [] → compileAfter s s ≠ output (compile fresh s)) := by
  suffices h : output (compile fresh s) = .ok s ∧ compileAfter s s = .ok [] by
    refine ⟨h.1, h.2, fun hne => ?_⟩
    rw [h.1, h.2]
    intro he
    injection he with he
    exact hne he.symm
  obtain ⟨ch1, hm⟩ := mainLoop_plain s [] 1 { fresh with source := s } []
    (by simp [rest_fresh]) hs (fun _ => by simp [lastState, fresh])
  have h1 : ∃ g1, compile fresh s = .ok (s, g1) ∧ g1.current = s.length := by
    unfold compile
    rw [Nat.add_comm, hm, mainLoop_end]
    · exact ⟨_, congrArg Res.ok (Prod.ext (List.nil_append s) rfl), by simp [fresh]⟩
    · simp [rest, fresh]
  obtain ⟨g1, h1, hc⟩ := h1
  refine ⟨by rw [h1]; rfl, ?_⟩
  unfold compileAfter
  rw [h1]
  simp only
  unfold compile
  rw [mainLoop_end]
  · rfl
  · simp [rest, hc]

/-- C14, at the input "ab", and two calls on different inputs: after "*a" the
call on "xyz*" starts at the third byte with Bold still open. -/
theorem C14_second_call_keeps_cursor_witness :
    TriggerFree (ascii "ab") ∧
    (output (compile fresh (ascii "ab")) = .ok (ascii "ab") ∧
      compileAfter (ascii "ab") (ascii "ab") = .ok [] ∧
      (ascii "ab" ≠ [] → compileAfter (ascii "ab") (ascii "ab")
        ≠ output (compile fresh (ascii "ab")))) ∧
    output (compile fresh (ascii "xyz*")) = .ok (ascii "xyz<strong>") ∧
    compileAfter (ascii "*a") (ascii "xyz*") = .ok (ascii "z</strong>") :=
  ⟨by decide, C14_second_call_keeps_cursor (ascii "ab") (by decide), by decide, by decide⟩

/-- C15 (the code fails here): a run of more than six `#` opens more than one
heading.  On seven `#` followed by "x" and a line feed `compile` returns
`<h6><h1>x</h1>` and leaves one Heading entry on the stack: the count stops at
the sixth `#` and the seventh is taken as a new heading. -/
theorem C15_seven_hashes_open_two_headings :
    output (compile fresh (List.replicate 7 35 ++ ascii "x\n")) = .ok (ascii "<h6><h1>x</h1>") ∧
    stackAfter (compile fresh (List.replicate 7 35 ++ ascii "x\n")) = .ok [heading] ∧
    output (compile fresh (List.replicate 12 35 ++ ascii "x\n")) = .ok (ascii "<h6><h6>x</h6>") := by
  decide

/-- C16 (the code fails here): with a heading opened while another is open,
the second line feed pops the first Heading entry after the level has been
cleared: on "# a # b" followed by two line feeds `compile` returns
`<h1> a <h1> b</h1></h0>`; on "## a # b" the first heading is closed as level
0 as well. -/
theorem C16_nested_heading_closes_as_h0 :
    output (compile fresh (ascii "# a # b\n\n")) = .ok (ascii "<h1> a <h1> b</h1></h0>") ∧
    output (compile fresh (ascii "## a # b\n\n")) = .ok (ascii "<h2> a <h1> b</h1></h0>") := by
  decide

/-- C19 (the code fails here): the two copies differ on every byte from 0x80
on.  On the one-byte input `b` with `b` from 0x80 to 0xFF the `compile` of
`main.go` returns two bytes, the UTF-8 form that `string(ch)` gives, while the
`compile` of `sitefl.go` returns the byte itself. -/
theorem C19_copies_differ_on_high_bytes (b : Nat) (hb : 128 ≤ b) (hb2 : b < 256) :
    output (MainGo.compile fresh [b]) = .ok [192 + b / 64, 128 + b % 64] ∧
    output (compile fresh [b]) = .ok [b] ∧
    output (MainGo.compile fresh [b]) ≠ output (compile fresh [b]) := by
  have h1 : ¬ b < 128 := by omega
  have hne : b ≠ 92 ∧ b ≠ 123 ∧ b ≠ 42 ∧ b ≠ 47 ∧ b ≠ 95 ∧ b ≠ 45 ∧ b ≠ 59 ∧ b ≠ 35 ∧ b ≠ 10 ∧
      b ≠ 64 ∧ b ≠ 33 ∧ b ≠ 96 := by omega
  obtain ⟨a1, a2, a3, a4, a5, a6, a7, a8, a9, a10, a11, a12⟩ := hne
  have hm : output (MainGo.compile fresh [b]) = .ok [192 + b / 64, 128 + b % 64] := by
    simp [MainGo.compile, MainGo.mainLoop, MainGo.body, setCh, curr, fresh, next, MainGo.string,
      output, *]
  have hs : output (compile fresh [b]) = .ok [b] := by
    simp [compile, mainLoop, body, setCh, curr, fresh, next, output, *]
  refine ⟨hm, hs, ?_⟩
  rw [hm, hs]
  simp

/-- C19, at the byte 0xE9, with a link whose alt text and URL hold a byte from
0x80 on; on the ASCII input "*a*" both copies return the same string. -/
theorem C19_copies_differ_on_high_bytes_witness :
    (128 ≤ 233 ∧ 233 < 256) ∧
    (output (MainGo.compile fresh [233]) = .ok [195, 169] ∧
      output (compile fresh [233]) = .ok [233] ∧
      output (MainGo.compile fresh [233]) ≠ output (compile fresh [233])) ∧
    output (MainGo.compile fresh (ascii "@[" ++ [233] ++ ascii "](" ++ [128] ++ ascii ") "))
      = .ok (ascii "\n<a href=\"" ++ [194, 128] ++ ascii "\">" ++ [195, 169] ++ ascii "</a>\n") ∧
    output (compile fresh (ascii "@[" ++ [233] ++ ascii "](" ++ [128] ++ ascii ") "))
      = .ok (ascii "\n<a href=\"" ++ [128] ++ ascii "\">" ++ [233] ++ ascii "</a>\n") ∧
    output (MainGo.compile fresh (ascii "*a*")) = output (compile fresh (ascii "*a*")) :=
  ⟨by decide, C19_copies_differ_on_high_bytes 233 (by decide) (by decide), by decide, by decide,
    by decide⟩

/-- Behaviour around C18: when the text after the image holds two colons in a
row, the width loop stops there instead of at the end of the source, and the
tag is built from a later pair of brackets and parentheses. -/
theorem width_runs_past_bracket_example :
    output (compile fresh (ascii "![a::b](u)x::y](v)zw"))
      = .ok (ascii "\n<img src=\"v\" alt=\"a\" width=\"b](u)x\" height=\"y\">\nw") := by
  decide

/-- Behaviour around C18 that the code does have: the URL scan stops only at
the `)` that balances the opening `(`.  For an alt text without `]`, a URL
with balanced parentheses and a non-empty trigger-free tail `r`, `compile`
from a fresh state returns, on `@[alt](url) r`, a string that starts with the
anchor tag whose `href` is the whole URL; the same holds for the `src` of an
image whose alt text has no two colons in a row. -/
theorem url_scan_balanced (alt u r : List Nat) (halt : 93 ∉ alt) (hb : Balanced u)
    (hr : r ≠ []) (hrt : TriggerFree r) :
    output (compile fresh (ascii "@[" ++ alt ++ ascii "](" ++ u ++ ascii ")" ++ r))
      = .ok (ascii "\n<a href=\"" ++ u ++ ascii "\">"
          ++ ((if alt = [] then u else alt) ++ ascii "</a>\n" ++ r.tail)) ∧
    (NoDoubleColon alt →
      output (compile fresh (ascii "![" ++ alt ++ ascii "](" ++ u ++ ascii ")" ++ r))
        = .ok (ascii "\n<img src=\"" ++ u ++ ascii "\""
            ++ (ascii " alt=\"" ++ (if alt = [] then u else alt) ++ ascii "\">\n" ++ r.tail))) := by
  obtain ⟨c, q, rfl⟩ : ∃ c q, r = c :: q := by
    cases r with
    | nil => exact absurd rfl hr
    | cons c q => exact ⟨c, q, rfl⟩
  have hq : TriggerFree q := fun b hb => hrt b (by simp [hb])
  have hd1 : ascii "@[" = [64, 91] := by decide
  have hd2 : ascii "![" = [33, 91] := by decide
  have hd3 : ascii "](" = [93, 40] := by decide
  have hd4 : ascii ")" = [41] := by decide
  have hd5 : ascii "\" alt=\"" = ascii "\"" ++ ascii " alt=\"" := by decide
  have hs1 : ascii "@[" ++ alt ++ ascii "](" ++ u ++ ascii ")" ++ c :: q
      = 64 :: 91 :: (alt ++ 93 :: 40 :: (u ++ 41 :: c :: q)) := by simp [hd1, hd3, hd4]
  have hs2 : ascii "![" ++ alt ++ ascii "](" ++ u ++ ascii ")" ++ c :: q
      = 33 :: 91 :: (alt ++ 93 :: 40 :: (u ++ 41 :: c :: q)) := by simp [hd2, hd3, hd4]
  rw [hs1, hs2]
  refine ⟨?_, fun hcc => ?_⟩
  · rw [compile_link_followed alt u q c halt hb hq]
    simp
  · rw [compile_image_followed alt u q c halt hcc hb hq, hd5]
    simp

/-- Behaviour around C18 that the code does have: in an image with dimensions
`![alt::w::h](url)`, for an alt text without colon and `]`, a width without
colon, a height without `]`, a URL with balanced parentheses and a non-empty
trigger-free tail `r`, the string `compile` returns starts with the tag whose
`src` is the whole URL. -/
theorem url_scan_balanced_dims (alt w h u r : List Nat) (halt : 93 ∉ alt) (halt2 : 58 ∉ alt)
    (hw : 58 ∉ w) (hh : 93 ∉ h) (hb : Balanced u) (hr : r ≠ []) (hrt : TriggerFree r) :
    output (compile fresh (ascii "![" ++ alt ++ ascii "::" ++ w ++ ascii "::" ++ h ++ ascii "]("
        ++ u ++ ascii ")" ++ r))
      = .ok (ascii "\n<img src=\"" ++ u ++ ascii "\""
          ++ (ascii " alt=\"" ++ (if alt = [] then u else alt) ++ ascii "\""
            ++ (if w ≠ [] then ascii " width=\"" ++ w ++ [34] else [])
            ++ (if h ≠ [] then ascii " height=\"" ++ h ++ [34] else []) ++ ascii ">\n"
            ++ r.tail)) := by
  obtain ⟨c, q, rfl⟩ : ∃ c q, r = c :: q := by
    cases r with
    | nil => exact absurd rfl hr
    | cons c q => exact ⟨c, q, rfl⟩
  have hq : TriggerFree q := fun b hb => hrt b (by simp [hb])
  have hd2 : ascii "![" = [33, 91] := by decide
  have hd3 : ascii "](" = [93, 40] := by decide
  have hd4 : ascii ")" = [41] := by decide
  have hd5 : ascii "\" alt=\"" = ascii "\"" ++ ascii " alt=\"" := by decide
  have hd6 : ascii "::" = [58, 58] := by decide
  have hs2 : ascii "![" ++ alt ++ ascii "::" ++ w ++ ascii "::" ++ h ++ ascii "](" ++ u
      ++ ascii ")" ++ c :: q
      = 33 :: 91 :: (alt ++ 58 :: 58 :: (w ++ 58 :: 58 ::
        (h ++ 93 :: 40 :: (u ++ 41 :: c :: q)))) := by simp [hd2, hd3, hd4, hd6]
  rw [hs2, compile_image_dims_followed alt w h u q c halt halt2 hw hh hb hq, hd5]
  simp

/-- The theorems on the URL scan at the URLs "x(y)z" and "((a))", without and
with dimensions. -/
theorem url_scan_balanced_examples :
    (93 ∉ ascii "a" ∧ Balanced (ascii "x(y)z") ∧ Balanced (ascii "((a))") ∧ ascii "rs" ≠ [] ∧
      TriggerFree (ascii "rs") ∧ NoDoubleColon (ascii "a")) ∧
    output (compile fresh (ascii "@[a](x(y)z)rs")) = .ok (ascii "\n<a href=\"x(y)z\">a</a>\ns") ∧
    output (compile fresh (ascii "![a](x(y)z)rs"))
      = .ok (ascii "\n<img src=\"x(y)z\" alt=\"a\">\ns") ∧
    output (compile fresh (ascii "@[a](((a)))rs")) = .ok (ascii "\n<a href=\"((a))\">a</a>\ns") ∧
    output (compile fresh (ascii "![a::1::2](x(y)z)rs"))
      = .ok (ascii "\n<img src=\"x(y)z\" alt=\"a\" width=\"1\" height=\"2\">\ns") :=
  ⟨by decide,
    (url_scan_balanced (ascii "a") (ascii "x(y)z") (ascii "rs") (by decide) (by decide)
      (by decide) (by decide)).1,
    (url_scan_balanced (ascii "a") (ascii "x(y)z") (ascii "rs") (by decide) (by decide)
      (by decide) (by decide)).2 (by decide),
    (url_scan_balanced (ascii "a") (ascii "((a))") (ascii "rs") (by decide) (by decide)
      (by decide) (by decide)).1,
    url_scan_balanced_dims (ascii "a") (ascii "1") (ascii "2") (ascii "x(y)z") (ascii "rs")
      (by decide) (by decide) (by decide) (by decide) (by decide) (by decide) (by decide)⟩

/-- Behaviour around C20 that the code does have: after a well-formed link or
image the byte that follows the closing `)` is consumed without being written.
For a non-empty alt text without `]`, a URL without parentheses, any byte `c`
and a trigger-free text `r`, `compile` from a fresh state turns
`@[alt](url) c r` into the anchor followed by `r`; likewise `![alt](url) c r`
gives the image tag followed by `r` when the alt text has no two colons in a
row. -/
theorem byte_after_link_is_consumed (alt u r : List Nat) (c : Nat) (halt0 : alt ≠ [])
    (halt : 93 ∉ alt) (hu : 40 ∉ u) (hu2 : 41 ∉ u) (hr : TriggerFree r) :
    output (compile fresh (ascii "@[" ++ alt ++ ascii "](" ++ u ++ ascii ")" ++ c :: r))
      = .ok (ascii "\n<a href=\"" ++ u ++ ascii "\">" ++ alt ++ ascii "</a>\n" ++ r) ∧
    (NoDoubleColon alt →
      output (compile fresh (ascii "![" ++ alt ++ ascii "](" ++ u ++ ascii ")" ++ c :: r))
        = .ok (ascii "\n<img src=\"" ++ u ++ ascii "\" alt=\"" ++ alt ++ ascii "\">\n" ++ r)) := by
  have hb : Balanced u := balanced_of_no_paren u hu hu2
  have hd1 : ascii "@[" = [64, 91] := by decide
  have hd2 : ascii "![" = [33, 91] := by decide
  have hd3 : ascii "](" = [93, 40] := by decide
  have hd4 : ascii ")" = [41] := by decide
  have hs1 : ascii "@[" ++ alt ++ ascii "](" ++ u ++ ascii ")" ++ c :: r
      = 64 :: 91 :: (alt ++ 93 :: 40 :: (u ++ 41 :: c :: r)) := by simp [hd1, hd3, hd4]
  have hs2 : ascii "![" ++ alt ++ ascii "](" ++ u ++ ascii ")" ++ c :: r
      = 33 :: 91 :: (alt ++ 93 :: 40 :: (u ++ 41 :: c :: r)) := by simp [hd2, hd3, hd4]
  rw [hs1, hs2]
  refine ⟨?_, fun hcc => ?_⟩
  · rw [compile_link_followed alt u r c halt hb hr, if_neg halt0]
  · rw [compile_image_followed alt u r c halt hcc hb hr, if_neg halt0]

/-- Behaviour around C20 that the code does have: after an image with
dimensions `![alt::w::h](url)` too, the byte `c` that follows the closing `)`
is consumed without being written and the trigger-free text `r` follows the
tag. -/
theorem byte_after_image_dims_is_consumed (alt w h u r : List Nat) (c : Nat) (halt0 : alt ≠ [])
    (halt : 93 ∉ alt) (halt2 : 58 ∉ alt) (hw : 58 ∉ w) (hh : 93 ∉ h)
    (hu : 40 ∉ u) (hu2 : 41 ∉ u) (hr : TriggerFree r) :
    output (compile fresh (ascii "![" ++ alt ++ ascii "::" ++ w ++ ascii "::" ++ h ++ ascii "]("
        ++ u ++ ascii ")" ++ c :: r))
      = .ok (ascii "\n<img src=\"" ++ u ++ ascii "\" alt=\"" ++ alt ++ ascii "\""
          ++ (if w ≠ [] then ascii " width=\"" ++ w ++ [34] else [])
          ++ (if h ≠ [] then ascii " height=\"" ++ h ++ [34] else []) ++ ascii ">\n" ++ r) := by
  have hb : Balanced u := balanced_of_no_paren u hu hu2
  have hd2 : ascii "![" = [33, 91] := by decide
  have hd3 : ascii "](" = [93, 40] := by decide
  have hd4 : ascii ")" = [41] := by decide
  have hd6 : ascii "::" = [58, 58] := by decide
  have hs2 : ascii "![" ++ alt ++ ascii "::" ++ w ++ ascii "::" ++ h ++ ascii "](" ++ u
      ++ ascii ")" ++ c :: r
      = 33 :: 91 :: (alt ++ 58 :: 58 :: (w ++ 58 :: 58 ::
        (h ++ 93 :: 40 :: (u ++ 41 :: c :: r)))) := by simp [hd2, hd3, hd4, hd6]
  rw [hs2, compile_image_dims_followed alt w h u r c halt halt2 hw hh hb hr, if_neg halt0]

/-- The theorems on the byte after a link or image at the inputs "@[a](b)xy",
"![a](b)xy" and "![a::1::2](b)xy". -/
theorem byte_after_link_examples :
    (ascii "a" ≠ [] ∧ 93 ∉ ascii "a" ∧ 40 ∉ ascii "b" ∧ 41 ∉ ascii "b" ∧
      TriggerFree (ascii "y") ∧ NoDoubleColon (ascii "a")) ∧
    output (compile fresh (ascii "@[a](b)xy")) = .ok (ascii "\n<a href=\"b\">a</a>\ny") ∧
    output (compile fresh (ascii "![a](b)xy")) = .ok (ascii "\n<img src=\"b\" alt=\"a\">\ny") ∧
    output (compile fresh (ascii "![a::1::2](b)xy"))
      = .ok (ascii "\n<img src=\"b\" alt=\"a\" width=\"1\" height=\"2\">\ny") :=
  ⟨by decide,
    (byte_after_link_is_consumed (ascii "a") (ascii "b") (ascii "y") 120 (by decide)
      (by decide) (by decide) (by decide) (by decide)).1,
    (byte_after_link_is_consumed (ascii "a") (ascii "b") (ascii "y") 120 (by decide)
      (by decide) (by decide) (by decide) (by decide)).2 (by decide),
    byte_after_image_dims_is_consumed (ascii "a") (ascii "1") (ascii "2") (ascii "b") (ascii "y")
      120 (by decide) (by decide) (by decide) (by decide) (by decide) (by decide) (by decide)
      (by decide)⟩

end Siteflon
